import Mathlib

/-!
# SASAP: security-aware serverless application partitioning

A shallow embedding of the partitioning and scoring code of the repository
(`SASAP.cpp`, and the three programs `Bicriteria Approximation Scheme.cpp`,
`Greedy Tree Partitioning.cpp`, `Left Right Tree Traversal.cpp`), followed by
theorems about it.

Conventions of the embedding:
* C++ `int` is `Int`; signed overflow (undefined behaviour in C++) is not modelled.
* C++ `double` is `ℚ`: the scoring formulas are read over the rationals. The one product
  whose rounding matters, `latency * 0.1` of the penalty, is rounded as IEEE 754 binary64
  does (`Binary64.round`).
* `std::vector` and `std::queue` are `List` (push at the back, pop at the front);
  `std::unordered_set<int>` is a `List Int` used only through membership.
* A `TreeNode*` that is dereferenced is a `TreeNode` value; a tree is finite.
-/

namespace SASAP

/-- Tree node of `SASAP.cpp`: `id`, `cost`, `latency`, `secureComputation`, `children`. -/
inductive TreeNode where
  | mk (id : Int) (cost : Int) (latency : Int) (secureComputation : Bool)
      (children : List TreeNode) : TreeNode

namespace TreeNode

/-- Field `id`. -/
def id : TreeNode → Int
  | mk i _ _ _ _ => i

/-- Field `cost`. -/
def cost : TreeNode → Int
  | mk _ c _ _ _ => c

/-- Field `latency`. -/
def latency : TreeNode → Int
  | mk _ _ l _ _ => l

/-- Field `secureComputation`. -/
def secureComputation : TreeNode → Bool
  | mk _ _ _ s _ => s

/-- Field `children`. -/
def children : TreeNode → List TreeNode
  | mk _ _ _ _ cs => cs

mutual
/-- All nodes of the tree rooted at a node, in pre-order. -/
def nodes : TreeNode → List TreeNode
  | mk i c l s cs => mk i c l s cs :: nodesList cs
/-- All nodes of a forest, in pre-order. -/
def nodesList : List TreeNode → List TreeNode
  | [] => []
  | t :: ts => nodes t ++ nodesList ts
end

/-- Number of nodes of the tree. -/
def size (t : TreeNode) : Nat := t.nodes.length

/-- The ids of all nodes of the tree, in pre-order. -/
def ids (t : TreeNode) : List Int := t.nodes.map id

end TreeNode

/-- Partition of `SASAP.cpp`. -/
structure Partition where
  totalCost : Int
  totalLatency : Int
  nodes : List Int
  hasSecureNode : Bool
  deriving DecidableEq

/-- Linkage of `SASAP.cpp`. -/
structure Linkage where
  fromNode : Int
  toNode : Int
  deriving DecidableEq

/-- `createPartition`: a new partition containing a single node. -/
def createPartition (node : TreeNode) : Partition :=
  { totalCost := node.cost, totalLatency := node.latency, nodes := [node.id],
    hasSecureNode := node.secureComputation }

/-- The local variables of `improvedTreePartitioning`, with the `linkages` out-parameter. -/
structure State where
  partitions : List Partition
  usedNodes : List Int
  q : List TreeNode
  linkages : List Linkage

/-- The condition of the `if` inside the `for (auto& partition : partitions)` loop. -/
def accepts (node : TreeNode) (latencyLimit memoryLimit : Int) (usedNodes : List Int)
    (partition : Partition) : Bool :=
  decide (partition.totalLatency + node.latency ≤ latencyLimit) &&
  decide (partition.totalCost + node.cost ≤ memoryLimit) &&
  decide (node.id ∉ usedNodes) &&
  (!node.secureComputation || partition.hasSecureNode)

/-- The body of that `if`: the partition updated with the current node. -/
def addNode (partition : Partition) (node : TreeNode) : Partition :=
  { totalLatency := partition.totalLatency + node.latency,
    totalCost := partition.totalCost + node.cost,
    nodes := partition.nodes ++ [node.id],
    hasSecureNode := if node.secureComputation then true else partition.hasSecureNode }

/-- The loop `for (auto& partition : partitions) { if (...) { ...; placed = true; break; } }`:
`some` of the updated vector when `placed` ends up `true`, `none` when it stays `false`. -/
def placeInExisting (node : TreeNode) (latencyLimit memoryLimit : Int) (usedNodes : List Int) :
    List Partition → Option (List Partition)
  | [] => none
  | partition :: rest =>
    if accepts node latencyLimit memoryLimit usedNodes partition then
      some (addNode partition node :: rest)
    else
      (placeInExisting node latencyLimit memoryLimit usedNodes rest).map (partition :: ·)

/-- The loop `for (auto child : node->children)`, acting on `(linkages, q)`. -/
def enqueueChildren (node : TreeNode) (usedNodes : List Int) :
    List TreeNode → List Linkage × List TreeNode → List Linkage × List TreeNode
  | [], acc => acc
  | child :: rest, (linkages, q) =>
    if child.id ∈ usedNodes then
      enqueueChildren node usedNodes rest (linkages, q)
    else
      enqueueChildren node usedNodes rest
        (linkages ++ [{ fromNode := node.id, toNode := child.id }], q ++ [child])

/-- One iteration of the `while (!q.empty())` loop, for the dequeued `node`
and the queue `rest` left after `q.pop()`. -/
def loopBody (latencyLimit memoryLimit : Int) (s : State) (node : TreeNode)
    (rest : List TreeNode) : State :=
  let placed := placeInExisting node latencyLimit memoryLimit s.usedNodes s.partitions
  let partitions :=
    match placed with
    | some ps => ps
    | none => s.partitions ++ [createPartition node]
  let usedNodes := node.id :: s.usedNodes
  let lq := enqueueChildren node usedNodes node.children (s.linkages, rest)
  { partitions := partitions, usedNodes := usedNodes, q := lq.2, linkages := lq.1 }

/-- The `while (!q.empty())` loop, run for at most `fuel` iterations. -/
def whileLoop (latencyLimit memoryLimit : Int) : Nat → State → State
  | 0, s => s
  | fuel + 1, s =>
    match s.q with
    | [] => s
    | node :: rest => whileLoop latencyLimit memoryLimit fuel (loopBody latencyLimit memoryLimit s node rest)

/-- The state on entry to the `while` loop. -/
def initState (root : TreeNode) (linkages : List Linkage) : State :=
  { partitions := [], usedNodes := [], q := [root], linkages := linkages }

/-- The state when `improvedTreePartitioning` leaves its loop. The loop is given
`root.size` iterations, which `finalState_q` shows to be enough to empty the queue. -/
def finalState (root : TreeNode) (latencyLimit memoryLimit : Int) (linkages : List Linkage) :
    State :=
  whileLoop latencyLimit memoryLimit root.size (initState root linkages)

/-- `improvedTreePartitioning`: the returned partitions, and the final content of
the `linkages` vector passed by reference. -/
def improvedTreePartitioning (root : TreeNode) (latencyLimit memoryLimit : Int)
    (linkages : List Linkage) : List Partition × List Linkage :=
  let s := finalState root latencyLimit memoryLimit linkages
  (s.partitions, s.linkages)

/-- The chain `0 -> 1 -> 2 -> 3` with every cost 10 and every latency 5, no secure node. -/
def chain4 : TreeNode :=
  .mk 0 10 5 false [.mk 1 10 5 false [.mk 2 10 5 false [.mk 3 10 5 false []]]]

/-- A five-node tree with two secure nodes: `0 -> {1, 2}`, `1 -> {3, 4}`. -/
def sampleTree : TreeNode :=
  .mk 0 10 5 false [.mk 1 10 5 true [.mk 3 5 5 true [], .mk 4 30 2 false []], .mk 2 10 20 false []]

/-- A secure leaf with id 1, cost 10 and latency 5. -/
def secureLeaf : TreeNode := .mk 1 10 5 true []

/-- A state in which node 0 (cost 10, latency 5, not secure) has seeded the only partition. -/
def seededState : State :=
  { partitions := [{ totalCost := 10, totalLatency := 5, nodes := [0], hasSecureNode := false }],
    usedNodes := [0], q := [], linkages := [] }

/-- The partition holding the two secure nodes 1 and 3 of `sampleTree`. -/
def samplePair : Partition :=
  { totalCost := 15, totalLatency := 10, nodes := [1, 3], hasSecureNode := true }

/-! ### Notions used to state the properties of `improvedTreePartitioning` -/

/-- The ids held by a vector of partitions: the `nodes` lists, concatenated. -/
def memberIds : List Partition → List Int
  | [] => []
  | p :: ps => p.nodes ++ memberIds ps

/-- Ids of all nodes reachable from a list of trees. -/
def idsList (ts : List TreeNode) : List Int := (TreeNode.nodesList ts).map TreeNode.id

/-- Loop invariant for trees with distinct ids: the ids already placed and the ids
still reachable from the queue are pairwise distinct, and `usedNodes` holds exactly
the placed ids. -/
def DistinctInv (s : State) : Prop :=
  (memberIds s.partitions ++ idsList s.q).Nodup ∧
    ∀ x, x ∈ s.usedNodes ↔ x ∈ memberIds s.partitions

/-- What the budget property says of one partition: it has a member; with two or more
members it is within both limits; with a single member its totals are those of a node of
the tree with that id. -/
def BudgetOk (root : TreeNode) (latencyLimit memoryLimit : Int) (p : Partition) : Prop :=
  p.nodes ≠ [] ∧
  (2 ≤ p.nodes.length → p.totalCost ≤ memoryLimit ∧ p.totalLatency ≤ latencyLimit) ∧
  (∀ x, p.nodes = [x] → ∃ n ∈ root.nodes, n.id = x ∧ p.totalCost = n.cost ∧
    p.totalLatency = n.latency)

/-- The acceptance test as the specification words it, without the `usedNodes` lookup:
`P.totalCost + node.cost <= costLimit` and `P.totalLatency + node.latency <= latencyLimit`
and (`node.secure` is false or `P.hasSecureMember` is true). -/
def firstFitCondition (node : TreeNode) (latencyLimit memoryLimit : Int) (p : Partition) : Prop :=
  p.totalCost + node.cost ≤ memoryLimit ∧ p.totalLatency + node.latency ≤ latencyLimit ∧
    (node.secureComputation = false ∨ p.hasSecureNode = true)

/-- The node with the given id that a pre-order search of the tree finds first. -/
def findNode (root : TreeNode) (x : Int) : Option TreeNode :=
  root.nodes.find? (fun n => decide (n.id = x))

/-- Cost of the node with the given id (0 when the tree has no such node). -/
def nodeCost (root : TreeNode) (x : Int) : Int :=
  match findNode root x with
  | some n => n.cost
  | none => 0

/-- Latency of the node with the given id (0 when the tree has no such node). -/
def nodeLatency (root : TreeNode) (x : Int) : Int :=
  match findNode root x with
  | some n => n.latency
  | none => 0

/-- The totals of a partition are the sums over a list of tree nodes whose ids are its
`nodes` list. -/
def TotalsOk (root : TreeNode) (p : Partition) : Prop :=
  ∃ ns : List TreeNode, (∀ n ∈ ns, n ∈ root.nodes) ∧ ns.map TreeNode.id = p.nodes ∧
    p.totalCost = (ns.map TreeNode.cost).sum ∧ p.totalLatency = (ns.map TreeNode.latency).sum

end SASAP

/-! ## The scoring functions of the three other programs

A division whose divisor is zero yields an infinity or a NaN in C++ and 0 in `ℚ`; the
theorems below assume positive limits wherever a limit is divided by. -/

namespace Bicriteria

/-- `calculatePartitionQoS` of `Bicriteria Approximation Scheme.cpp`. -/
def calculatePartitionQoS (totalCost totalLatency costLimit latencyLimit : Int) : ℚ :=
  let costSatisfaction : ℚ := ((costLimit - totalCost : Int) : ℚ) * 100 / (costLimit : ℚ)
  let latencySatisfaction : ℚ :=
    ((latencyLimit - totalLatency : Int) : ℚ) * 100 / (latencyLimit : ℚ)
  let costSatisfaction := max 0 costSatisfaction
  let latencySatisfaction := max 0 latencySatisfaction
  (costSatisfaction + latencySatisfaction) / 2

end Bicriteria

namespace Greedy

/-- Partition of `Greedy Tree Partitioning.cpp`. -/
structure Partition where
  totalCost : Int
  totalLatency : Int
  nodes : List Int
  deriving DecidableEq

/-- `calculate_partition_qos_satisfaction` of `Greedy Tree Partitioning.cpp`. -/
def calculate_partition_qos_satisfaction (partition : Partition)
    (latencyLimit memoryLimit : Int) : ℚ :=
  if partition.totalCost ≤ memoryLimit ∧ partition.totalLatency ≤ latencyLimit then
    100
  else
    let costSatisfaction : ℚ :=
      ((memoryLimit - partition.totalCost : Int) : ℚ) * 100 / (memoryLimit : ℚ)
    let latencySatisfaction : ℚ :=
      ((latencyLimit - partition.totalLatency : Int) : ℚ) * 100 / (latencyLimit : ℚ)
    let qosSatisfaction := (costSatisfaction + latencySatisfaction) / 2
    max 0 qosSatisfaction

end Greedy

namespace LeftRight

/-- `calculate_partition_qos_satisfaction` of `Left Right Tree Traversal.cpp`. -/
def calculate_partition_qos_satisfaction (totalCost totalLatency costLimit latencyLimit : Int) :
    ℚ :=
  if totalCost ≤ costLimit ∧ totalLatency ≤ latencyLimit then
    100
  else
    let costSatisfaction : ℚ := ((costLimit - totalCost : Int) : ℚ) * 100 / (costLimit : ℚ)
    let latencySatisfaction : ℚ :=
      ((latencyLimit - totalLatency : Int) : ℚ) * 100 / (latencyLimit : ℚ)
    let qosSatisfaction := (costSatisfaction + latencySatisfaction) / 2
    max 0 qosSatisfaction

end LeftRight

/-! ## Rounding of `double` arithmetic -/

namespace Binary64

/-- The integer nearest to `y`, a tie going to the even one. -/
def roundHalfEven (y : ℚ) : ℤ :=
  let f := ⌊y⌋
  if y - f < 1 / 2 then f
  else if 1 / 2 < y - f then f + 1
  else if f % 2 = 0 then f else f + 1

/-- The `double` that a real number is rounded to under IEEE 754 binary64, round to nearest
with ties to even: with `2 ^ e <= |x| < 2 ^ (e + 1)`, the nearest multiple of
`2 ^ (e - 52)`, which has 53 significant bits. The exponent range (overflow, subnormal
numbers) is not modelled. -/
def round (x : ℚ) : ℚ :=
  if x = 0 then 0
  else
    let e := Int.log 2 |x|
    let ulp : ℚ := 2 ^ (e - 52)
    (roundHalfEven (x / ulp) : ℚ) * ulp

/-- The product `x * y` of two `double`s: the exact product, rounded. -/
def mul (x y : ℚ) : ℚ := round (x * y)

/-- The `double` that the literal `0.1` denotes. -/
def tenth : ℚ := round (1 / 10)

end Binary64

namespace Greedy

/-- `get_random_latency`, for the value `r` that the call of `rand()` returns. The sum
`10.0 + (rand() % 91)` is an integer of at most 100, which a `double` holds exactly. -/
def get_random_latency (r : Nat) : ℚ :=
  10 + ((r % 91 : Nat) : ℚ)

/-- `calculate_latency_factor`, for the value `r` that its call of `rand()` returns. The
product `latency * 0.1` is the `double` product of `latency` and the `double` `0.1`. -/
def calculate_latency_factor (r : Nat) : ℚ :=
  let latency := get_random_latency r
  let latency_impact := Binary64.mul latency Binary64.tenth
  min latency_impact 25

/-- The inner loop of `calculate_overall_qos_satisfaction`: the totals of one partition.
The reads `root[nodeId].cost` and `root[nodeId].latency` index the root pointer as an
array; what they yield is taken as the parameters `costAt` and `latencyAt`. The remainder
`% 100` of C++ truncates towards zero. -/
def partitionTotals (costAt latencyAt : Int → Int) : List Int → Partition → Partition
  | [], p => p
  | nodeId :: rest, p =>
    partitionTotals costAt latencyAt rest
      { p with totalCost := p.totalCost + |costAt nodeId|,
               totalLatency := p.totalLatency + |(latencyAt nodeId).tmod 100| }

/-- The value `qos` that one iteration of the outer loop of
`calculate_overall_qos_satisfaction` adds to `total_qos`, for the sample `r`. -/
def adjusted_qos (costAt latencyAt : Int → Int) (latencyLimit memoryLimit : Int)
    (partition : List Int) (r : Nat) : ℚ :=
  let p := partitionTotals costAt latencyAt partition
    { totalCost := 0, totalLatency := 0, nodes := [] }
  let qos := calculate_partition_qos_satisfaction p latencyLimit memoryLimit
  let latency_factor := calculate_latency_factor r
  max 10 (qos - latency_factor)

/-- The outer loop of `calculate_overall_qos_satisfaction`, acting on
`(total_qos, partition_count)`; `calls` counts the calls of `rand()` made so far and
`rand k` is the value returned by call number `k`. -/
def overallLoop (costAt latencyAt : Int → Int) (latencyLimit memoryLimit : Int)
    (rand : Nat → Nat) : List (List Int) → Nat → ℚ × Nat → ℚ × Nat
  | [], _, acc => acc
  | partition :: rest, calls, (total_qos, partition_count) =>
    overallLoop costAt latencyAt latencyLimit memoryLimit rand rest (calls + 1)
      (total_qos + adjusted_qos costAt latencyAt latencyLimit memoryLimit partition (rand calls),
        partition_count + 1)

/-- `calculate_overall_qos_satisfaction`, with the node lookups and the random source as
explicit inputs. -/
def calculate_overall_qos_satisfaction (costAt latencyAt : Int → Int) (rand : Nat → Nat)
    (partitions : List (List Int)) (latencyLimit memoryLimit : Int) : ℚ :=
  let acc := overallLoop costAt latencyAt latencyLimit memoryLimit rand partitions 0 (0, 0)
  let overall_qos : ℚ := if acc.2 > 0 then acc.1 / (acc.2 : ℚ) else 0
  min overall_qos 95

end Greedy

namespace SASAP

/-! ### The secure channel and the argument check of `SASAP.cpp`

A `std::string` is a `List Char`. -/

/-- `encryptData`: `"encrypted(" + data + ")"`. -/
def encryptData (data : List Char) : List Char :=
  "encrypted(".toList ++ data ++ ")".toList

/-- `std::string::find` from a position on: the first position at which `pat` occurs
in `data`, counted from `pos` for the head of `data`; `none` stands for `npos`. -/
def findFrom (pat : List Char) : List Char → Nat → Option Nat
  | [], pos => if pat.isPrefixOf [] then some pos else none
  | c :: rest, pos =>
    if pat.isPrefixOf (c :: rest) then some pos else findFrom pat rest (pos + 1)

/-- `data.find(pat)`. -/
def find (data pat : List Char) : Option Nat :=
  findFrom pat data 0

/-- `data.substr(pos, len)` for `pos <= data.size()`. -/
def substr (data : List Char) (pos len : Nat) : List Char :=
  (data.drop pos).take len

/-- `decryptData`. The `size_t` difference `data.size() - 11` is computed only when `data`
starts with `"encrypted("` and ends with `')'`, hence has at least 11 characters. -/
def decryptData (data : List Char) : List Char :=
  if find data "encrypted(".toList = some 0 ∧ data.getLast? = some ')' then
    substr data 10 (data.length - 11)
  else
    data

/-- What the first statements of `main` decide, given `argc` and the three integers that
`stoi` parses from `argv[1..3]`: `some 1` when `main` returns 1 there, `none` when it goes
on to seed the generator and to call `generateTree`. -/
def mainCheck (argc numNodes numVCPUs secureNodeCount : Int) : Option Int :=
  if argc ≠ 4 then
    some 1
  else if numNodes < 1 ∨ numNodes > 500 ∨ numVCPUs < 1 ∨ secureNodeCount < 0 ∨
      secureNodeCount > numNodes then
    some 1
  else
    none

end SASAP

namespace Bicriteria

/-- Tree node of `Bicriteria Approximation Scheme.cpp`: `id`, `cost`, `latency`, `children`. -/
inductive TreeNode where
  | mk (id : Int) (cost : Int) (latency : Int) (children : List TreeNode) : TreeNode

namespace TreeNode

/-- Field `id`. -/
def id : TreeNode → Int
  | mk i _ _ _ => i

/-- Field `cost`. -/
def cost : TreeNode → Int
  | mk _ c _ _ => c

/-- Field `latency`. -/
def latency : TreeNode → Int
  | mk _ _ l _ => l

/-- Field `children`. -/
def children : TreeNode → List TreeNode
  | mk _ _ _ cs => cs

mutual
/-- All nodes of the tree rooted at a node, in pre-order. -/
def nodes : TreeNode → List TreeNode
  | mk i c l cs => mk i c l cs :: nodesList cs
/-- All nodes of a forest, in pre-order. -/
def nodesList : List TreeNode → List TreeNode
  | [] => []
  | t :: ts => nodes t ++ nodesList ts
end

/-- The ids of all nodes of the tree, in pre-order. -/
def ids (t : TreeNode) : List Int := t.nodes.map id

end TreeNode

mutual
/-- `findTreeNode` on a non-null `root`. -/
def findTreeNodeIn : TreeNode → Int → Option TreeNode
  | .mk i c l cs, id =>
    if i = id then some (.mk i c l cs) else findTreeNodeChildren cs id
/-- The loop `for (TreeNode* child : root->children)` of `findTreeNode`. -/
def findTreeNodeChildren : List TreeNode → Int → Option TreeNode
  | [], _ => none
  | child :: rest, id =>
    match findTreeNodeIn child id with
    | some found => some found
    | none => findTreeNodeChildren rest id
end

/-- `findTreeNode`: a `TreeNode*` that may be null is an `Option TreeNode`. -/
def findTreeNode (root : Option TreeNode) (id : Int) : Option TreeNode :=
  match root with
  | none => none
  | some node => findTreeNodeIn node id

end Bicriteria

namespace Bicriteria

/-- Insertion into a `std::unordered_set`, kept as a duplicate-free list. -/
def setInsert {α : Type} [DecidableEq α] (x : α) (s : List α) : List α :=
  if x ∈ s then s else s ++ [x]

/-! A `TreeNode*` is identified by the position of the node in the tree: the list of child
indices that leads from the root to it. Two pointers are equal exactly when the positions
are. The set `visited` of `std::unordered_set<TreeNode*>` holds such positions. -/

mutual
/-- `dfs`, for the node at position `addr`, acting on `(currentPartition, visited)`. -/
def dfs : TreeNode → List Nat → Int → List Int × List (List Nat) →
    List Int × List (List Nat)
  | .mk i _ l cs, addr, latencyLimit, (currentPartition, visited) =>
    dfsChildren l addr latencyLimit cs 0
      (setInsert i currentPartition, setInsert addr visited)
/-- The loop `for (TreeNode* child : node->children)` of `dfs`, from child number `k` on,
for a node of latency `nodeLatency` at position `addr`. -/
def dfsChildren : Int → List Nat → Int → List TreeNode → Nat →
    List Int × List (List Nat) → List Int × List (List Nat)
  | _, _, _, [], _, st => st
  | nodeLatency, addr, latencyLimit, child :: rest, k, (currentPartition, visited) =>
    if (addr ++ [k]) ∉ visited ∧ nodeLatency + child.latency ≤ latencyLimit then
      dfsChildren nodeLatency addr latencyLimit rest (k + 1)
        (dfs child (addr ++ [k]) (latencyLimit - nodeLatency) (currentPartition, visited))
    else
      dfsChildren nodeLatency addr latencyLimit rest (k + 1) (currentPartition, visited)
end

/-- The loop `for (int id : currentPartition)` of `bicriteriaApproximation`, acting on
`(totalCost, totalLatency)`; `node` is the child of the root that the partition grew from. -/
def partitionSums (node : TreeNode) : List Int → Int × Int → Int × Int
  | [], acc => acc
  | _ :: rest, (totalCost, totalLatency) =>
    partitionSums node rest (totalCost + node.cost, totalLatency + node.latency)

/-- The loop `for (TreeNode* node : root->children)` of `bicriteriaApproximation`, from
child number `k` on, acting on `(visited, compositeFunctions, overallQoS)`. -/
def bicriteriaLoop (latencyLimit costLimit : Int) : List TreeNode → Nat →
    List (List Nat) × List (List Int) × ℚ → List (List Nat) × List (List Int) × ℚ
  | [], _, st => st
  | node :: rest, k, (visited, compositeFunctions, overallQoS) =>
    if [k] ∉ visited then
      let r := dfs node [k] latencyLimit ([], visited)
      let currentPartition := r.1
      if currentPartition ≠ [] then
        let totals := partitionSums node currentPartition (0, 0)
        let partitionQoS := calculatePartitionQoS totals.1 totals.2 costLimit latencyLimit
        bicriteriaLoop latencyLimit costLimit rest (k + 1)
          (r.2, compositeFunctions ++ [currentPartition], overallQoS + partitionQoS)
      else
        bicriteriaLoop latencyLimit costLimit rest (k + 1) (r.2, compositeFunctions, overallQoS)
    else
      bicriteriaLoop latencyLimit costLimit rest (k + 1) (visited, compositeFunctions, overallQoS)

/-- `bicriteriaApproximation`: the final contents of the reference parameters
`compositeFunctions` and `overallQoS`. -/
def bicriteriaApproximation (root : TreeNode) (latencyLimit costLimit : Int)
    (compositeFunctions : List (List Int)) (overallQoS : ℚ) : List (List Int) × ℚ :=
  (bicriteriaLoop latencyLimit costLimit root.children 0
    ([], compositeFunctions, overallQoS)).2

/-- A tree `0 -> {1, 4}`, `1 -> {2}`, `2 -> {3}`, with latencies 1, 5, 3, 20, 2 and costs
0, 10, 30, 5, 7. -/
def sampleTree : TreeNode :=
  .mk 0 0 1 [.mk 1 10 5 [.mk 2 30 3 [.mk 3 5 20 []]], .mk 4 7 2 []]

end Bicriteria

namespace Bicriteria

/-! ### Notions used to state the properties of `bicriteriaApproximation` -/

/-- Insertion of the elements of a list, one after the other, into a set. -/
def insertAll {α : Type} [DecidableEq α] (s : List α) (xs : List α) : List α :=
  xs.foldl (fun acc x => setInsert x acc) s

mutual
/-- The ids that a descent from a node with budget `latencyLimit` reaches, in visiting
order, when no node has been visited before. -/
def reach : TreeNode → Int → List Int
  | .mk i _ l cs, latencyLimit => i :: reachChildren l latencyLimit cs
/-- The ids reached through the children of a node of latency `nodeLatency`. -/
def reachChildren : Int → Int → List TreeNode → List Int
  | _, _, [] => []
  | nodeLatency, latencyLimit, child :: rest =>
    (if nodeLatency + child.latency ≤ latencyLimit then
        reach child (latencyLimit - nodeLatency) else []) ++
      reachChildren nodeLatency latencyLimit rest
end

mutual
/-- The downward paths that start at a node, one per node of its subtree, in pre-order of
their end node; a path lists its nodes from the start to the end. -/
def pathsFrom : TreeNode → List (List TreeNode)
  | .mk i c l cs => [.mk i c l cs] :: (pathsFromChildren cs).map (fun p => .mk i c l cs :: p)
/-- The downward paths that start at one of the nodes of a list. -/
def pathsFromChildren : List TreeNode → List (List TreeNode)
  | [] => []
  | t :: ts => pathsFrom t ++ pathsFromChildren ts
end

/-- The edge test of `dfs` along a path below a node of latency `parentLatency`, the
budget being `latencyLimit` at that node: each edge `parent -> child` has
`parent.latency + child.latency <= budget`, and the budget below is
`budget - parent.latency`. -/
def edgesOk : Int → Int → List TreeNode → Prop
  | _, _, [] => True
  | parentLatency, latencyLimit, child :: rest =>
    parentLatency + child.latency ≤ latencyLimit ∧
      edgesOk child.latency (latencyLimit - parentLatency) rest

/-- The edge test of `dfs` along a whole path that starts with budget `latencyLimit`. -/
def withinBudget (latencyLimit : Int) : List TreeNode → Prop
  | [] => True
  | start :: rest => edgesOk start.latency latencyLimit rest

end Bicriteria

namespace Bicriteria

/-- The partition that a descent from the child `c` of the root builds. -/
def partitionOf (c : TreeNode) (latencyLimit : Int) : List Int :=
  insertAll [] (reach c latencyLimit)

/-- The score that `bicriteriaApproximation` adds to `overallQoS` for the partition grown
from the child `c` of the root. -/
def addedScore (c : TreeNode) (latencyLimit costLimit : Int) : ℚ :=
  let totals := partitionSums c (partitionOf c latencyLimit) (0, 0)
  calculatePartitionQoS totals.1 totals.2 costLimit latencyLimit

end Bicriteria

namespace Bicriteria

/-- The first child of the root of `sampleTree`, with its subtree. -/
def sampleChild : TreeNode :=
  .mk 1 10 5 [.mk 2 30 3 [.mk 3 5 20 []]]

/-- A chain `0 -> 1 -> 2` with costs 0, 10, 30 and latencies 1, 5, 3. -/
def scoringTree : TreeNode :=
  .mk 0 0 1 [.mk 1 10 5 [.mk 2 30 3 []]]

end Bicriteria

namespace SASAP

/-! ### The edges of a tree in breadth-first order -/

/-- The shape of a tree: its ids and its parent-child structure, without the cost, latency
and secure attributes. -/
inductive IdTree where
  | mk (id : Int) (children : List IdTree) : IdTree

namespace IdTree

/-- Field `id`. -/
def id : IdTree → Int
  | mk i _ => i

/-- Field `children`. -/
def children : IdTree → List IdTree
  | mk _ cs => cs

mutual
/-- Number of nodes of a shape. -/
def size : IdTree → Nat
  | mk _ cs => 1 + sizeList cs
/-- Number of nodes of a list of shapes. -/
def sizeList : List IdTree → Nat
  | [] => 0
  | t :: ts => size t + sizeList ts
end

end IdTree

mutual
/-- The shape of a tree. -/
def TreeNode.skeleton : TreeNode → IdTree
  | .mk i _ _ _ cs => .mk i (skeletonList cs)
/-- The shapes of a list of trees. -/
def skeletonList : List TreeNode → List IdTree
  | [] => []
  | t :: ts => TreeNode.skeleton t :: skeletonList ts
end

/-- A breadth-first traversal with a queue, at most `fuel` nodes long: for each node
visited, its edges `(node id, child id)` in child order. -/
def bfsEdges : Nat → List IdTree → List Linkage
  | 0, _ => []
  | _ + 1, [] => []
  | fuel + 1, t :: rest =>
    t.children.map (fun c => { fromNode := t.id, toNode := c.id }) ++
      bfsEdges fuel (rest ++ t.children)

/-- The edges of a tree as `(parent id, child id)` pairs, ordered by breadth-first visit
order of the parent and then by child order. -/
def treeEdges (t : IdTree) : List Linkage :=
  bfsEdges t.size [t]

end SASAP

namespace LeftRight

/-- `calculate_latency_factor` of `Left Right Tree Traversal.cpp`, for the value `r` that
its call of `rand()` returns. The sum `10.0 + (rand() % 91)` is exact in a `double`; the
product `latency * 0.1` is the `double` product of `latency` and the `double` `0.1`. -/
def calculate_latency_factor (r : Nat) : ℚ :=
  let latency : ℚ := 10 + ((r % 91 : Nat) : ℚ)
  let latencyImpact := Binary64.mul latency Binary64.tenth
  min latencyImpact 25

end LeftRight

namespace SASAP

/-- The secure flag of the node with the given id (false when the tree has no such node). -/
def nodeSecure (root : TreeNode) (x : Int) : Bool :=
  match findNode root x with
  | some n => n.secureComputation
  | none => false

/-- The secure flag of a partition agrees with the tree nodes it received: it is the flag of
the first of them, and it is true exactly when one of them is secure. -/
def SecureOk (root : TreeNode) (p : Partition) : Prop :=
  ∃ (seed : TreeNode) (rest : List TreeNode), (∀ n ∈ seed :: rest, n ∈ root.nodes) ∧
    (seed :: rest).map TreeNode.id = p.nodes ∧
    p.hasSecureNode = seed.secureComputation ∧
    (p.hasSecureNode = true ↔ ∃ n ∈ seed :: rest, n.secureComputation = true)

end SASAP

namespace LeftRight

/-- Tree node of `Left Right Tree Traversal.cpp`: `id`, `cost`, `latency`, `children`. -/
inductive TreeNode where
  | mk (id : Int) (cost : Int) (latency : Int) (children : List TreeNode) : TreeNode

namespace TreeNode

/-- Field `id`. -/
def id : TreeNode → Int
  | mk i _ _ _ => i

/-- Field `cost`. -/
def cost : TreeNode → Int
  | mk _ c _ _ => c

/-- Field `children`. -/
def children : TreeNode → List TreeNode
  | mk _ _ _ cs => cs

mutual
/-- All nodes of the tree in pre-order: a node before its descendants, the children from
left to right. -/
def preorder : TreeNode → List TreeNode
  | mk i c l cs => mk i c l cs :: preorderList cs
/-- All nodes of a forest, tree after tree, each in pre-order. -/
def preorderList : List TreeNode → List TreeNode
  | [] => []
  | t :: ts => preorder t ++ preorderList ts
end

end TreeNode

/-- The loop `for (int i = node->children.size() - 1; i >= 0; --i)` of
`LeftRightTreeTraversal`, with `n = i + 1` indices still to go: it pushes
`(node->children[i], index, i)` on the stack, whose top is the head of the list. -/
def pushChildren (children : List TreeNode) (index : Int) :
    Nat → List (TreeNode × Int × Int) → List (TreeNode × Int × Int)
  | 0, stack => stack
  | n + 1, stack =>
    match children[n]? with
    | some child => pushChildren children index n ((child, index, (n : Int)) :: stack)
    | none => pushChildren children index n stack

/-- The loop `while (!stack.empty())` of `LeftRightTreeTraversal`, run for at most `fuel`
iterations, acting on the stack and on `traversalResult`. -/
def traversalLoop : Nat → List (TreeNode × Int × Int) → List (Int × Int) → List (Int × Int)
  | 0, _, traversalResult => traversalResult
  | _ + 1, [], traversalResult => traversalResult
  | fuel + 1, (node, _, index) :: stack, traversalResult =>
    traversalLoop fuel (pushChildren node.children index node.children.length stack)
      (traversalResult ++ [(node.id, node.cost)])

/-- `LeftRightTreeTraversal`: a `TreeNode*` that may be null is an `Option TreeNode`. The
loop is given as many iterations as the tree has nodes, which `traversalLoop_eq` shows to
be enough to empty the stack. -/
def LeftRightTreeTraversal (root : Option TreeNode) : List (Int × Int) :=
  match root with
  | none => traversalLoop 0 [] []
  | some node => traversalLoop node.preorder.length [(node, -1, 0)] []

/-- A tree `0 -> {1, 4}`, `1 -> {2, 3}` with costs 7, 10, 30, 5, 2. -/
def sampleTree : TreeNode :=
  .mk 0 7 1 [.mk 1 10 5 [.mk 2 30 3 [], .mk 3 5 20 []], .mk 4 2 2 []]

end LeftRight

namespace SASAP

/-! ## Basic facts about trees and the loop -/

theorem TreeNode.nodes_eq (t : TreeNode) : t.nodes = t :: TreeNode.nodesList t.children := by
  cases t; simp [TreeNode.nodes, TreeNode.children]

theorem TreeNode.nodesList_append (xs ys : List TreeNode) :
    TreeNode.nodesList (xs ++ ys) = TreeNode.nodesList xs ++ TreeNode.nodesList ys := by
  induction xs with
  | nil => simp [TreeNode.nodesList]
  | cons x xs ih => simp [TreeNode.nodesList, ih]

theorem TreeNode.nodesList_cons (t : TreeNode) (ts : List TreeNode) :
    TreeNode.nodesList (t :: ts) = t :: (TreeNode.nodesList t.children ++ TreeNode.nodesList ts) := by
  simp [TreeNode.nodesList, TreeNode.nodes_eq t]

theorem TreeNode.mem_nodesList_self {t : TreeNode} {ts : List TreeNode} (h : t ∈ ts) :
    t ∈ TreeNode.nodesList ts := by
  induction ts with
  | nil => cases h
  | cons x xs ih =>
    rw [TreeNode.nodesList_cons]
    rcases List.mem_cons.1 h with rfl | h
    · exact List.mem_cons_self _ _
    · exact List.mem_cons_of_mem _ (List.mem_append_right _ (ih h))

/-- The `for (auto child : node->children)` loop keeps the children whose id is not used. -/
theorem enqueueChildren_eq (node : TreeNode) (usedNodes : List Int) (cs : List TreeNode)
    (linkages : List Linkage) (q : List TreeNode) :
    enqueueChildren node usedNodes cs (linkages, q) =
      (linkages ++ (cs.filter (fun c => decide (c.id ∉ usedNodes))).map
          (fun c => { fromNode := node.id, toNode := c.id }),
        q ++ cs.filter (fun c => decide (c.id ∉ usedNodes))) := by
  induction cs generalizing linkages q with
  | nil => simp [enqueueChildren]
  | cons c cs ih =>
    by_cases h : c.id ∈ usedNodes
    · simp [enqueueChildren, h, ih]
    · simp [enqueueChildren, h, ih]

theorem length_nodesList_filter_le (p : TreeNode → Bool) (cs : List TreeNode) :
    (TreeNode.nodesList (cs.filter p)).length ≤ (TreeNode.nodesList cs).length := by
  induction cs with
  | nil => simp
  | cons c cs ih =>
    by_cases h : p c
    · simp only [List.filter_cons_of_pos h, TreeNode.nodesList, List.length_append]; omega
    · simp only [List.filter_cons_of_neg h, TreeNode.nodesList, List.length_append]; omega

/-- Each iteration strictly decreases the number of nodes reachable from the queue. -/
theorem loopBody_weight (latencyLimit memoryLimit : Int) (s : State) (node : TreeNode)
    (rest : List TreeNode) :
    (TreeNode.nodesList (loopBody latencyLimit memoryLimit s node rest).q).length <
      (TreeNode.nodesList (node :: rest)).length := by
  have h := length_nodesList_filter_le (fun c => decide (c.id ∉ node.id :: s.usedNodes)) node.children
  simp only [loopBody, enqueueChildren_eq, TreeNode.nodesList_append, TreeNode.nodesList_cons,
    List.length_append, List.length_cons]
  omega

/-- With at least as much fuel as there are nodes reachable from the queue, the loop
stops because the queue is empty. -/
theorem whileLoop_q (latencyLimit memoryLimit : Int) (fuel : Nat) (s : State)
    (h : (TreeNode.nodesList s.q).length ≤ fuel) :
    (whileLoop latencyLimit memoryLimit fuel s).q = [] := by
  induction fuel generalizing s with
  | zero =>
    cases hq : s.q with
    | nil => simpa [whileLoop] using hq
    | cons node rest => rw [hq, TreeNode.nodesList_cons] at h; simp at h
  | succ fuel ih =>
    cases hq : s.q with
    | nil => simp [whileLoop, hq]
    | cons node rest =>
      simp only [whileLoop, hq]
      apply ih
      have := loopBody_weight latencyLimit memoryLimit s node rest
      rw [hq] at h
      omega

/-- Once the queue is empty, further iterations change nothing: the result of the loop
does not depend on how much fuel is left over. -/
theorem whileLoop_stable (latencyLimit memoryLimit : Int) (k j : Nat) (s : State)
    (h : (whileLoop latencyLimit memoryLimit k s).q = []) :
    whileLoop latencyLimit memoryLimit (k + j) s = whileLoop latencyLimit memoryLimit k s := by
  induction k generalizing s with
  | zero =>
    simp only [whileLoop] at h
    cases j with
    | zero => rfl
    | succ j => simp [whileLoop, h]
  | succ k ih =>
    rw [Nat.add_right_comm]
    cases hq : s.q with
    | nil => simp [whileLoop, hq]
    | cons node rest =>
      simp only [whileLoop, hq] at h ⊢
      exact ih _ h

/-- The loop of `improvedTreePartitioning` terminates: the queue is empty on exit. -/
theorem finalState_q (root : TreeNode) (latencyLimit memoryLimit : Int) (linkages : List Linkage) :
    (finalState root latencyLimit memoryLimit linkages).q = [] := by
  apply whileLoop_q
  simp [initState, TreeNode.nodesList, TreeNode.size]

/-- Loop-invariant rule for the `while` loop. -/
theorem whileLoop_invariant (latencyLimit memoryLimit : Int) (P : State → Prop)
    (hstep : ∀ s node rest, P s → s.q = node :: rest →
      P (loopBody latencyLimit memoryLimit s node rest))
    (fuel : Nat) (s : State) (h : P s) : P (whileLoop latencyLimit memoryLimit fuel s) := by
  induction fuel generalizing s with
  | zero => simpa [whileLoop] using h
  | succ fuel ih =>
    cases hq : s.q with
    | nil => simpa [whileLoop, hq] using h
    | cons node rest =>
      simp only [whileLoop, hq]
      exact ih _ (hstep s node rest h hq)

theorem memberIds_append (xs ys : List Partition) :
    memberIds (xs ++ ys) = memberIds xs ++ memberIds ys := by
  induction xs with
  | nil => simp [memberIds]
  | cons x xs ih => simp [memberIds, ih]

/-- When the `for` loop places the node, it updates the first accepting partition. -/
theorem placeInExisting_some {node : TreeNode} {latencyLimit memoryLimit : Int}
    {usedNodes : List Int} {ps ps' : List Partition}
    (h : placeInExisting node latencyLimit memoryLimit usedNodes ps = some ps') :
    ∃ pre p post, ps = pre ++ p :: post ∧
      (∀ p' ∈ pre, accepts node latencyLimit memoryLimit usedNodes p' = false) ∧
      accepts node latencyLimit memoryLimit usedNodes p = true ∧
      ps' = pre ++ addNode p node :: post := by
  induction ps generalizing ps' with
  | nil => simp [placeInExisting] at h
  | cons x xs ih =>
    by_cases hx : accepts node latencyLimit memoryLimit usedNodes x = true
    · simp only [placeInExisting, hx, if_true, Option.some.injEq] at h
      exact ⟨[], x, xs, rfl, by simp, hx, by simp [← h]⟩
    · simp only [placeInExisting, hx, Bool.false_eq_true, if_false, Option.map_eq_some'] at h
      obtain ⟨ys, hys, rfl⟩ := h
      obtain ⟨pre, p, post, rfl, hpre, hp, rfl⟩ := ih hys
      refine ⟨x :: pre, p, post, rfl, ?_, hp, rfl⟩
      intro p' hp'
      rcases List.mem_cons.1 hp' with rfl | hp'
      · simpa using hx
      · exact hpre p' hp'

/-- The `for` loop leaves `placed` false exactly when no partition accepts the node. -/
theorem placeInExisting_none {node : TreeNode} {latencyLimit memoryLimit : Int}
    {usedNodes : List Int} {ps : List Partition} :
    placeInExisting node latencyLimit memoryLimit usedNodes ps = none ↔
      ∀ p ∈ ps, accepts node latencyLimit memoryLimit usedNodes p = false := by
  induction ps with
  | nil => simp [placeInExisting]
  | cons x xs ih =>
    by_cases hx : accepts node latencyLimit memoryLimit usedNodes x = true
    · simp [placeInExisting, hx]
    · simp [placeInExisting, hx, ih]

/-- The partitions after one iteration: either the first accepting partition was
updated, or a new single-node partition was pushed at the back. -/
theorem loopBody_partitions (latencyLimit memoryLimit : Int) (s : State) (node : TreeNode)
    (rest : List TreeNode) :
    (∃ pre p post, s.partitions = pre ++ p :: post ∧
      (∀ p' ∈ pre, accepts node latencyLimit memoryLimit s.usedNodes p' = false) ∧
      accepts node latencyLimit memoryLimit s.usedNodes p = true ∧
      (loopBody latencyLimit memoryLimit s node rest).partitions =
        pre ++ addNode p node :: post) ∨
    ((∀ p ∈ s.partitions, accepts node latencyLimit memoryLimit s.usedNodes p = false) ∧
      (loopBody latencyLimit memoryLimit s node rest).partitions =
        s.partitions ++ [createPartition node]) := by
  cases h : placeInExisting node latencyLimit memoryLimit s.usedNodes s.partitions with
  | none =>
    right
    exact ⟨placeInExisting_none.1 h, by simp [loopBody, h]⟩
  | some ps' =>
    left
    obtain ⟨pre, p, post, h1, h2, h3, h4⟩ := placeInExisting_some h
    exact ⟨pre, p, post, h1, h2, h3, by simp [loopBody, h, h4]⟩

theorem loopBody_usedNodes (latencyLimit memoryLimit : Int) (s : State) (node : TreeNode)
    (rest : List TreeNode) :
    (loopBody latencyLimit memoryLimit s node rest).usedNodes = node.id :: s.usedNodes := rfl

theorem loopBody_q (latencyLimit memoryLimit : Int) (s : State) (node : TreeNode)
    (rest : List TreeNode) :
    (loopBody latencyLimit memoryLimit s node rest).q =
      rest ++ node.children.filter (fun c => decide (c.id ∉ node.id :: s.usedNodes)) := by
  simp [loopBody, enqueueChildren_eq]

theorem loopBody_linkages (latencyLimit memoryLimit : Int) (s : State) (node : TreeNode)
    (rest : List TreeNode) :
    (loopBody latencyLimit memoryLimit s node rest).linkages =
      s.linkages ++ (node.children.filter (fun c => decide (c.id ∉ node.id :: s.usedNodes))).map
        (fun c => { fromNode := node.id, toNode := c.id }) := by
  simp [loopBody, enqueueChildren_eq]

/-- One iteration adds exactly the id of the dequeued node to the partitions. -/
theorem loopBody_memberIds (latencyLimit memoryLimit : Int) (s : State) (node : TreeNode)
    (rest : List TreeNode) :
    (memberIds (loopBody latencyLimit memoryLimit s node rest).partitions).Perm
      (node.id :: memberIds s.partitions) := by
  rcases loopBody_partitions latencyLimit memoryLimit s node rest with
    ⟨pre, p, post, h1, -, -, h4⟩ | ⟨-, h⟩
  · rw [h4, h1]
    simp only [memberIds_append, memberIds, addNode, List.append_assoc, List.singleton_append]
    rw [← List.append_assoc, ← List.append_assoc]
    exact List.perm_middle
  · rw [h]
    simp only [memberIds_append, memberIds, createPartition, List.append_nil]
    exact (List.perm_append_comm).trans (by simp)

theorem idsList_cons (t : TreeNode) (ts : List TreeNode) :
    idsList (t :: ts) = t.id :: (idsList t.children ++ idsList ts) := by
  simp [idsList, TreeNode.nodesList_cons]

theorem idsList_append (xs ys : List TreeNode) :
    idsList (xs ++ ys) = idsList xs ++ idsList ys := by
  simp [idsList, TreeNode.nodesList_append]

theorem mem_idsList_of_mem {c : TreeNode} {cs : List TreeNode} (h : c ∈ cs) :
    c.id ∈ idsList cs :=
  List.mem_map_of_mem _ (TreeNode.mem_nodesList_self h)

/-- Under `DistinctInv`, no child of the dequeued node is filtered out. -/
theorem filter_children_eq {s : State} {node : TreeNode} {rest : List TreeNode}
    (hinv : DistinctInv s) (hq : s.q = node :: rest) :
    node.children.filter (fun c => decide (c.id ∉ node.id :: s.usedNodes)) = node.children := by
  rw [List.filter_eq_self]
  intro c hc
  obtain ⟨hnd, hused⟩ := hinv
  rw [hq, idsList_cons] at hnd
  have hcid : c.id ∈ idsList node.children := mem_idsList_of_mem hc
  rw [List.nodup_append] at hnd
  obtain ⟨-, hnd2, hdisj⟩ := hnd
  have h1 : c.id ≠ node.id := by
    intro heq
    rw [List.nodup_cons] at hnd2
    exact hnd2.1 (heq ▸ List.mem_append_left _ hcid)
  have h2 : c.id ∉ s.usedNodes := by
    intro hmem
    exact hdisj ((hused _).1 hmem) (List.mem_cons_of_mem _ (List.mem_append_left _ hcid))
  simp [h1, h2]

theorem loopBody_distinctInv (latencyLimit memoryLimit : Int) (s : State) (node : TreeNode)
    (rest : List TreeNode) (hinv : DistinctInv s) (hq : s.q = node :: rest) :
    DistinctInv (loopBody latencyLimit memoryLimit s node rest) ∧
    (memberIds (loopBody latencyLimit memoryLimit s node rest).partitions ++
        idsList (loopBody latencyLimit memoryLimit s node rest).q).Perm
      (memberIds s.partitions ++ idsList s.q) := by
  have hperm : (memberIds (loopBody latencyLimit memoryLimit s node rest).partitions ++
        idsList (loopBody latencyLimit memoryLimit s node rest).q).Perm
      (memberIds s.partitions ++ idsList s.q) := by
    rw [loopBody_q, filter_children_eq hinv hq, hq, idsList_cons, idsList_append]
    refine (List.Perm.append_right _ (loopBody_memberIds latencyLimit memoryLimit s node rest)).trans ?_
    have h1 : (idsList rest ++ idsList node.children).Perm
        (idsList node.children ++ idsList rest) := List.perm_append_comm
    refine (List.Perm.append_left _ h1).trans ?_
    simp only [List.cons_append]
    exact (List.perm_middle).symm
  refine ⟨⟨hperm.nodup_iff.2 hinv.1, ?_⟩, hperm⟩
  intro x
  rw [loopBody_usedNodes, (loopBody_memberIds latencyLimit memoryLimit s node rest).mem_iff]
  simp [hinv.2 x]

theorem initState_distinctInv (root : TreeNode) (linkages : List Linkage)
    (h : root.ids.Nodup) : DistinctInv (initState root linkages) := by
  constructor
  · simpa [initState, memberIds, idsList, TreeNode.nodesList, TreeNode.ids] using h
  · intro x; simp [initState, memberIds]

/-- Every state of the run on a tree with distinct ids satisfies `DistinctInv`, and
holds, between its partitions and its queue, exactly the ids of the tree. -/
theorem whileLoop_distinctInv (root : TreeNode) (latencyLimit memoryLimit : Int)
    (linkages : List Linkage) (h : root.ids.Nodup) (fuel : Nat) :
    DistinctInv (whileLoop latencyLimit memoryLimit fuel (initState root linkages)) ∧
    (memberIds (whileLoop latencyLimit memoryLimit fuel (initState root linkages)).partitions ++
      idsList (whileLoop latencyLimit memoryLimit fuel (initState root linkages)).q).Perm
        root.ids := by
  apply whileLoop_invariant latencyLimit memoryLimit
    (fun s => DistinctInv s ∧ (memberIds s.partitions ++ idsList s.q).Perm root.ids)
  · intro s node rest hs hq
    obtain ⟨h1, h2⟩ := loopBody_distinctInv latencyLimit memoryLimit s node rest hs.1 hq
    exact ⟨h1, h2.trans hs.2⟩
  · refine ⟨initState_distinctInv root linkages h, ?_⟩
    simp [initState, memberIds, idsList, TreeNode.nodesList, TreeNode.ids]

theorem count_memberIds (x : Int) (ps : List Partition) :
    (memberIds ps).count x = (ps.map (fun p => p.nodes.count x)).sum := by
  induction ps with
  | nil => simp [memberIds]
  | cons p ps ih => simp [memberIds, List.count_append, ih]

/-! ## Strategy A: properties of `improvedTreePartitioning` -/

/-- C1 (coverage). For a tree whose node ids are pairwise distinct, and for all limits,
the `nodes` lists of the partitions returned by `improvedTreePartitioning`, taken
together, are a rearrangement of the ids of the tree; so the number of occurrences of
an id, summed over all returned partitions, is 1 for an id of the tree and 0 for any
other integer. -/
theorem improvedTreePartitioning_coverage (root : TreeNode) (latencyLimit memoryLimit : Int)
    (linkages : List Linkage) (h : root.ids.Nodup) :
    (memberIds (improvedTreePartitioning root latencyLimit memoryLimit linkages).1).Perm root.ids ∧
    ∀ x : Int,
      (((improvedTreePartitioning root latencyLimit memoryLimit linkages).1).map
        (fun p => p.nodes.count x)).sum = if x ∈ root.ids then 1 else 0 := by
  have hperm : (memberIds (improvedTreePartitioning root latencyLimit memoryLimit linkages).1).Perm
      root.ids := by
    have h2 := (whileLoop_distinctInv root latencyLimit memoryLimit linkages h root.size).2
    have hq := finalState_q root latencyLimit memoryLimit linkages
    simp only [finalState] at hq
    rw [hq] at h2
    simpa [improvedTreePartitioning, finalState, idsList, TreeNode.nodesList] using h2
  refine ⟨hperm, fun x => ?_⟩
  rw [← count_memberIds, hperm.count_eq]
  by_cases hx : x ∈ root.ids
  · simp [hx, List.count_eq_one_of_mem h hx]
  · simp [hx, List.count_eq_zero_of_not_mem hx]

/-- Witness of C1 on the five-node sample tree. -/
theorem improvedTreePartitioning_coverage_witness :
    sampleTree.ids.Nodup ∧
    (memberIds (improvedTreePartitioning sampleTree 15 25 []).1).Perm sampleTree.ids ∧
    ∀ x : Int, (((improvedTreePartitioning sampleTree 15 25 []).1).map
        (fun p => p.nodes.count x)).sum = if x ∈ sampleTree.ids then 1 else 0 :=
  ⟨by decide, improvedTreePartitioning_coverage sampleTree 15 25 [] (by decide)⟩

/-- C2 (security affinity). In one iteration of the loop of `improvedTreePartitioning`,
from any state `s` and for a dequeued `node` with `secureComputation = true`: either the
node is appended to an existing partition whose `hasSecureNode` is true in `s`, or the
new partition `createPartition node` is pushed at the back. And on the tree with root 0
(not secure) and single child 1 (secure), with limits that both nodes fit together, the
result is the two partitions `[0]` and `[1]`. -/
theorem improvedTreePartitioning_security_affinity (latencyLimit memoryLimit : Int) (s : State)
    (node : TreeNode) (rest : List TreeNode) (c0 l0 c1 l1 : Int) (linkages : List Linkage)
    (hsecure : node.secureComputation = true)
    (hcost : c0 + c1 ≤ memoryLimit) (hlatency : l0 + l1 ≤ latencyLimit) :
    ((∃ pre p post, s.partitions = pre ++ p :: post ∧ p.hasSecureNode = true ∧
        (loopBody latencyLimit memoryLimit s node rest).partitions =
          pre ++ addNode p node :: post) ∨
      (loopBody latencyLimit memoryLimit s node rest).partitions =
        s.partitions ++ [createPartition node]) ∧
    (improvedTreePartitioning (.mk 0 c0 l0 false [.mk 1 c1 l1 true []])
        latencyLimit memoryLimit linkages).1 =
      [{ totalCost := c0, totalLatency := l0, nodes := [0], hasSecureNode := false },
       { totalCost := c1, totalLatency := l1, nodes := [1], hasSecureNode := true }] := by
  constructor
  · rcases loopBody_partitions latencyLimit memoryLimit s node rest with
      ⟨pre, p, post, h1, -, h3, h4⟩ | ⟨-, h⟩
    · left
      refine ⟨pre, p, post, h1, ?_, h4⟩
      simp only [accepts, hsecure, Bool.not_true, Bool.false_or, Bool.and_eq_true] at h3
      exact h3.2
    · exact Or.inr h
  · have _hc := hcost
    have _hl := hlatency
    simp [improvedTreePartitioning, finalState, TreeNode.size, TreeNode.nodes, TreeNode.nodesList,
      whileLoop, initState, loopBody, placeInExisting, accepts, createPartition, enqueueChildren,
      TreeNode.children, TreeNode.id, TreeNode.cost, TreeNode.latency, TreeNode.secureComputation]

/-- Witness of C2: a secure node dequeued when the only partition is not secure, and the
two-node tree with costs 10, 10 and latencies 5, 5 under limits 100 and 50. -/
theorem improvedTreePartitioning_security_affinity_witness :
    ((∃ pre p post, seededState.partitions = pre ++ p :: post ∧ p.hasSecureNode = true ∧
        (loopBody 50 100 seededState secureLeaf []).partitions =
          pre ++ addNode p secureLeaf :: post) ∨
      (loopBody 50 100 seededState secureLeaf []).partitions =
        seededState.partitions ++ [createPartition secureLeaf]) ∧
    (improvedTreePartitioning (.mk 0 10 5 false [.mk 1 10 5 true []]) 50 100 []).1 =
      [{ totalCost := 10, totalLatency := 5, nodes := [0], hasSecureNode := false },
       { totalCost := 10, totalLatency := 5, nodes := [1], hasSecureNode := true }] :=
  improvedTreePartitioning_security_affinity 50 100 seededState secureLeaf [] 10 5 10 5 []
    rfl (by decide) (by decide)

theorem nodesList_filter_subset (f : TreeNode → Bool) (cs : List TreeNode) :
    ∀ n ∈ TreeNode.nodesList (cs.filter f), n ∈ TreeNode.nodesList cs := by
  induction cs with
  | nil => simp
  | cons c cs ih =>
    intro n hn
    by_cases h : f c
    · rw [List.filter_cons_of_pos h, TreeNode.nodesList_cons] at hn
      rw [TreeNode.nodesList_cons]
      rcases List.mem_cons.1 hn with rfl | hn
      · exact List.mem_cons_self _ _
      · rcases List.mem_append.1 hn with hn | hn
        · exact List.mem_cons_of_mem _ (List.mem_append_left _ hn)
        · exact List.mem_cons_of_mem _ (List.mem_append_right _ (ih n hn))
    · rw [List.filter_cons_of_neg h] at hn
      rw [TreeNode.nodesList_cons]
      exact List.mem_cons_of_mem _ (List.mem_append_right _ (ih n hn))

/-- Every node that enters the queue is a node of the tree. -/
theorem loopBody_queue_subset (root : TreeNode) (latencyLimit memoryLimit : Int) (s : State)
    (node : TreeNode) (rest : List TreeNode) (hq : s.q = node :: rest)
    (h : ∀ n ∈ TreeNode.nodesList s.q, n ∈ root.nodes) :
    ∀ n ∈ TreeNode.nodesList (loopBody latencyLimit memoryLimit s node rest).q, n ∈ root.nodes := by
  intro n hn
  rw [loopBody_q, TreeNode.nodesList_append] at hn
  apply h
  rw [hq, TreeNode.nodesList_cons]
  rcases List.mem_append.1 hn with hn | hn
  · exact List.mem_cons_of_mem _ (List.mem_append_right _ hn)
  · exact List.mem_cons_of_mem _ (List.mem_append_left _ (nodesList_filter_subset _ _ n hn))

theorem initState_queue_subset (root : TreeNode) (linkages : List Linkage) :
    ∀ n ∈ TreeNode.nodesList (initState root linkages).q, n ∈ root.nodes := by
  simp [initState, TreeNode.nodesList]

theorem loopBody_budget (root : TreeNode) (latencyLimit memoryLimit : Int) (s : State)
    (node : TreeNode) (rest : List TreeNode) (hnode : node ∈ root.nodes)
    (h : ∀ p ∈ s.partitions, BudgetOk root latencyLimit memoryLimit p) :
    ∀ p ∈ (loopBody latencyLimit memoryLimit s node rest).partitions,
      BudgetOk root latencyLimit memoryLimit p := by
  intro p hp
  rcases loopBody_partitions latencyLimit memoryLimit s node rest with
    ⟨pre, p0, post, h1, -, h3, h4⟩ | ⟨-, h4⟩
  · rw [h4] at hp
    have hp0 : BudgetOk root latencyLimit memoryLimit p0 := h p0 (by simp [h1])
    rcases List.mem_append.1 hp with hp | hp
    · exact h p (by simp [h1, hp])
    rcases List.mem_cons.1 hp with rfl | hp
    · simp only [accepts, Bool.and_eq_true, decide_eq_true_eq] at h3
      refine ⟨by simp [addNode], fun _ => ⟨h3.1.1.2, h3.1.1.1⟩, ?_⟩
      intro x hx
      have hlen : (p0.nodes ++ [node.id]).length = 1 := by
        rw [show p0.nodes ++ [node.id] = [x] from hx]; rfl
      have hne : p0.nodes.length ≠ 0 := fun h0 => hp0.1 (List.length_eq_zero.1 h0)
      rw [List.length_append, List.length_singleton] at hlen
      omega
    · exact h p (by simp [h1, hp])
  · rw [h4] at hp
    rcases List.mem_append.1 hp with hp | hp
    · exact h p hp
    · rw [List.mem_singleton] at hp
      subst hp
      refine ⟨by simp [createPartition], ?_, ?_⟩
      · intro hlen; simp [createPartition] at hlen
      · intro x hx
        simp only [createPartition, List.cons.injEq, and_true] at hx
        exact ⟨node, hnode, hx, rfl, rfl⟩

/-- C3 (budget respect). For every tree and all limits, every partition returned by
`improvedTreePartitioning` with two or more members has `totalCost <= memoryLimit` and
`totalLatency <= latencyLimit`; a returned partition with the single member `x` carries
the cost and latency of a node of the tree with id `x`, so it exceeds a limit exactly
when that node alone does. No returned partition is empty. -/
theorem improvedTreePartitioning_budget (root : TreeNode) (latencyLimit memoryLimit : Int)
    (linkages : List Linkage) (p : Partition)
    (hp : p ∈ (improvedTreePartitioning root latencyLimit memoryLimit linkages).1) :
    p.nodes ≠ [] ∧
    (2 ≤ p.nodes.length → p.totalCost ≤ memoryLimit ∧ p.totalLatency ≤ latencyLimit) ∧
    (∀ x, p.nodes = [x] → ∃ n ∈ root.nodes, n.id = x ∧
      p.totalCost = n.cost ∧ p.totalLatency = n.latency ∧
      ((memoryLimit < p.totalCost ∨ latencyLimit < p.totalLatency) ↔
        (memoryLimit < n.cost ∨ latencyLimit < n.latency))) := by
  have hinv := whileLoop_invariant latencyLimit memoryLimit
    (fun s => (∀ n ∈ TreeNode.nodesList s.q, n ∈ root.nodes) ∧
      ∀ p ∈ s.partitions, BudgetOk root latencyLimit memoryLimit p)
    (by
      intro s node rest hs hq
      refine ⟨loopBody_queue_subset root latencyLimit memoryLimit s node rest hq hs.1, ?_⟩
      apply loopBody_budget root latencyLimit memoryLimit s node rest _ hs.2
      apply hs.1
      rw [hq, TreeNode.nodesList_cons]
      exact List.mem_cons_self _ _)
    root.size (initState root linkages)
    ⟨initState_queue_subset root linkages, by simp [initState]⟩
  obtain ⟨h1, h2, h3⟩ := hinv.2 p hp
  refine ⟨h1, h2, fun x hx => ?_⟩
  obtain ⟨n, hn, hid, hc, hl⟩ := h3 x hx
  exact ⟨n, hn, hid, hc, hl, by rw [hc, hl]⟩

/-- Witness of C3: the partition `[1, 3]` of the sample tree under limits 15 and 25. -/
theorem improvedTreePartitioning_budget_witness :
    samplePair ∈ (improvedTreePartitioning sampleTree 15 25 []).1 ∧
    (samplePair.nodes ≠ [] ∧
    (2 ≤ samplePair.nodes.length → samplePair.totalCost ≤ 25 ∧ samplePair.totalLatency ≤ 15) ∧
    (∀ x, samplePair.nodes = [x] → ∃ n ∈ sampleTree.nodes, n.id = x ∧
      samplePair.totalCost = n.cost ∧ samplePair.totalLatency = n.latency ∧
      (((25 : Int) < samplePair.totalCost ∨ (15 : Int) < samplePair.totalLatency) ↔
        ((25 : Int) < n.cost ∨ (15 : Int) < n.latency)))) :=
  ⟨by decide, improvedTreePartitioning_budget sampleTree 15 25 [] samplePair (by decide)⟩

/-- The state after `k + 1` iterations is the loop body applied to the state after `k`. -/
theorem whileLoop_succ (latencyLimit memoryLimit : Int) (k : Nat) (s : State)
    (node : TreeNode) (rest : List TreeNode)
    (hq : (whileLoop latencyLimit memoryLimit k s).q = node :: rest) :
    whileLoop latencyLimit memoryLimit (k + 1) s =
      loopBody latencyLimit memoryLimit (whileLoop latencyLimit memoryLimit k s) node rest := by
  induction k generalizing s with
  | zero =>
    simp only [whileLoop] at hq
    simp [whileLoop, hq]
  | succ k ih =>
    cases hs : s.q with
    | nil =>
      have : whileLoop latencyLimit memoryLimit (k + 1) s = s := by simp [whileLoop, hs]
      rw [this, hs] at hq
      cases hq
    | cons n r =>
      have h1 : whileLoop latencyLimit memoryLimit (k + 1) s =
          whileLoop latencyLimit memoryLimit k (loopBody latencyLimit memoryLimit s n r) := by
        simp [whileLoop, hs]
      have h2 : whileLoop latencyLimit memoryLimit (k + 1 + 1) s =
          whileLoop latencyLimit memoryLimit (k + 1) (loopBody latencyLimit memoryLimit s n r) := by
        simp [whileLoop, hs]
      rw [h1] at hq
      rw [h2, h1]
      exact ih _ hq

/-- Under `DistinctInv` the id of the dequeued node is not in `usedNodes`, so the test of
the code and `firstFitCondition` agree. -/
theorem accepts_iff_firstFitCondition {s : State} {node : TreeNode} {rest : List TreeNode}
    (hinv : DistinctInv s) (hq : s.q = node :: rest) (latencyLimit memoryLimit : Int)
    (p : Partition) :
    accepts node latencyLimit memoryLimit s.usedNodes p = true ↔
      firstFitCondition node latencyLimit memoryLimit p := by
  have hfresh : node.id ∉ s.usedNodes := by
    intro hmem
    have hnd := hinv.1
    rw [hq, idsList_cons, List.nodup_append] at hnd
    exact hnd.2.2 ((hinv.2 _).1 hmem) (List.mem_cons_self _ _)
  simp only [accepts, firstFitCondition, Bool.and_eq_true, decide_eq_true_eq, Bool.or_eq_true,
    Bool.not_eq_true']
  constructor
  · rintro ⟨⟨⟨h1, h2⟩, -⟩, h4⟩
    exact ⟨h2, h1, h4⟩
  · rintro ⟨h1, h2, h3⟩
    exact ⟨⟨⟨h2, h1⟩, hfresh⟩, h3⟩

/-- C4 (first fit). Run `improvedTreePartitioning` on a tree with pairwise distinct ids, and
let `node` be at the front of the queue after `k` iterations of the loop. Then the
partitions after `k + 1` iterations are obtained from those after `k` iterations in one of
two ways: the partition at some position meets `firstFitCondition`, no partition before it
does, and it is the one that received the node; or no partition meets `firstFitCondition`
and `createPartition node` was pushed at the back. -/
theorem improvedTreePartitioning_first_fit (root : TreeNode) (latencyLimit memoryLimit : Int)
    (linkages : List Linkage) (hid : root.ids.Nodup) (k : Nat) (node : TreeNode)
    (rest : List TreeNode)
    (hq : (whileLoop latencyLimit memoryLimit k (initState root linkages)).q = node :: rest) :
    (∃ pre p post,
      (whileLoop latencyLimit memoryLimit k (initState root linkages)).partitions =
        pre ++ p :: post ∧
      (whileLoop latencyLimit memoryLimit (k + 1) (initState root linkages)).partitions =
        pre ++ addNode p node :: post ∧
      firstFitCondition node latencyLimit memoryLimit p ∧
      ∀ p' ∈ pre, ¬ firstFitCondition node latencyLimit memoryLimit p') ∨
    ((whileLoop latencyLimit memoryLimit (k + 1) (initState root linkages)).partitions =
        (whileLoop latencyLimit memoryLimit k (initState root linkages)).partitions ++
          [createPartition node] ∧
      ∀ p ∈ (whileLoop latencyLimit memoryLimit k (initState root linkages)).partitions,
        ¬ firstFitCondition node latencyLimit memoryLimit p) := by
  have hinv := (whileLoop_distinctInv root latencyLimit memoryLimit linkages hid k).1
  rw [whileLoop_succ latencyLimit memoryLimit k _ node rest hq]
  rcases loopBody_partitions latencyLimit memoryLimit
      (whileLoop latencyLimit memoryLimit k (initState root linkages)) node rest with
    ⟨pre, p, post, h1, h2, h3, h4⟩ | ⟨h2, h4⟩
  · left
    refine ⟨pre, p, post, h1, h4,
      (accepts_iff_firstFitCondition hinv hq latencyLimit memoryLimit p).1 h3, ?_⟩
    intro p' hp' hfit
    have := (accepts_iff_firstFitCondition hinv hq latencyLimit memoryLimit p').2 hfit
    rw [h2 p' hp'] at this
    cases this
  · right
    refine ⟨h4, ?_⟩
    intro p hp hfit
    have := (accepts_iff_firstFitCondition hinv hq latencyLimit memoryLimit p).2 hfit
    rw [h2 p hp] at this
    cases this

/-- Witness of C4: the third iteration on the sample tree under limits 50 and 100, which
dequeues node 2 while nodes 3 and 4 wait. -/
theorem improvedTreePartitioning_first_fit_witness :
    sampleTree.ids.Nodup ∧
    (whileLoop 50 100 2 (initState sampleTree [])).q =
      .mk 2 10 20 false [] :: [.mk 3 5 5 true [], .mk 4 30 2 false []] ∧
    ((∃ pre p post,
      (whileLoop 50 100 2 (initState sampleTree [])).partitions = pre ++ p :: post ∧
      (whileLoop 50 100 (2 + 1) (initState sampleTree [])).partitions =
        pre ++ addNode p (.mk 2 10 20 false []) :: post ∧
      firstFitCondition (.mk 2 10 20 false []) 50 100 p ∧
      ∀ p' ∈ pre, ¬ firstFitCondition (.mk 2 10 20 false []) 50 100 p') ∨
    ((whileLoop 50 100 (2 + 1) (initState sampleTree [])).partitions =
        (whileLoop 50 100 2 (initState sampleTree [])).partitions ++
          [createPartition (.mk 2 10 20 false [])] ∧
      ∀ p ∈ (whileLoop 50 100 2 (initState sampleTree [])).partitions,
        ¬ firstFitCondition (.mk 2 10 20 false []) 50 100 p)) :=
  ⟨by decide, rfl,
    improvedTreePartitioning_first_fit sampleTree 50 100 [] (by decide) 2
      (.mk 2 10 20 false []) [.mk 3 5 5 true [], .mk 4 30 2 false []] rfl⟩

theorem find?_of_nodup_map {l : List TreeNode} (h : (l.map TreeNode.id).Nodup)
    {n : TreeNode} (hn : n ∈ l) :
    l.find? (fun m => decide (m.id = n.id)) = some n := by
  induction l with
  | nil => cases hn
  | cons a l ih =>
    rw [List.map_cons, List.nodup_cons] at h
    rcases List.mem_cons.1 hn with rfl | hn
    · simp
    · have hne : a.id ≠ n.id := fun heq => h.1 (heq ▸ List.mem_map_of_mem _ hn)
      simp [List.find?_cons, hne, ih h.2 hn]

theorem nodeCost_of_mem {root : TreeNode} (h : root.ids.Nodup) {n : TreeNode}
    (hn : n ∈ root.nodes) : nodeCost root n.id = n.cost := by
  simp [nodeCost, findNode, find?_of_nodup_map h hn]

theorem nodeLatency_of_mem {root : TreeNode} (h : root.ids.Nodup) {n : TreeNode}
    (hn : n ∈ root.nodes) : nodeLatency root n.id = n.latency := by
  simp [nodeLatency, findNode, find?_of_nodup_map h hn]

theorem loopBody_totals (root : TreeNode) (latencyLimit memoryLimit : Int) (s : State)
    (node : TreeNode) (rest : List TreeNode) (hnode : node ∈ root.nodes)
    (h : ∀ p ∈ s.partitions, TotalsOk root p) :
    ∀ p ∈ (loopBody latencyLimit memoryLimit s node rest).partitions, TotalsOk root p := by
  intro p hp
  rcases loopBody_partitions latencyLimit memoryLimit s node rest with
    ⟨pre, p0, post, h1, -, -, h4⟩ | ⟨-, h4⟩
  · rw [h4] at hp
    rcases List.mem_append.1 hp with hp | hp
    · exact h p (by simp [h1, hp])
    rcases List.mem_cons.1 hp with rfl | hp
    · obtain ⟨ns, hns, hids, hc, hl⟩ := h p0 (by simp [h1])
      refine ⟨ns ++ [node], ?_, ?_, ?_, ?_⟩
      · intro n hn
        rcases List.mem_append.1 hn with hn | hn
        · exact hns n hn
        · rw [List.mem_singleton] at hn; exact hn ▸ hnode
      · simp [addNode, hids]
      · simp [addNode, hc]
      · simp [addNode, hl]
    · exact h p (by simp [h1, hp])
  · rw [h4] at hp
    rcases List.mem_append.1 hp with hp | hp
    · exact h p hp
    · rw [List.mem_singleton] at hp
      subst hp
      exact ⟨[node], by simpa using hnode, by simp [createPartition], by simp [createPartition],
        by simp [createPartition]⟩

/-- Every partition of the final state has the totals of the tree nodes it lists. -/
theorem finalState_totals (root : TreeNode) (latencyLimit memoryLimit : Int)
    (linkages : List Linkage) :
    ∀ p ∈ (finalState root latencyLimit memoryLimit linkages).partitions, TotalsOk root p := by
  have hinv := whileLoop_invariant latencyLimit memoryLimit
    (fun s => (∀ n ∈ TreeNode.nodesList s.q, n ∈ root.nodes) ∧
      ∀ p ∈ s.partitions, TotalsOk root p)
    (by
      intro s node rest hs hq
      refine ⟨loopBody_queue_subset root latencyLimit memoryLimit s node rest hq hs.1, ?_⟩
      apply loopBody_totals root latencyLimit memoryLimit s node rest _ hs.2
      apply hs.1
      rw [hq, TreeNode.nodesList_cons]
      exact List.mem_cons_self _ _)
    root.size (initState root linkages)
    ⟨initState_queue_subset root linkages, by simp [initState]⟩
  exact hinv.2

/-- C5 (aggregate totals). For a tree with pairwise distinct ids, in every partition
returned by `improvedTreePartitioning`, `totalCost` is the sum, over the ids in its `nodes`
list, of the cost of the tree node with that id, and `totalLatency` is the sum of their
latencies. -/
theorem improvedTreePartitioning_totals (root : TreeNode) (latencyLimit memoryLimit : Int)
    (linkages : List Linkage) (hid : root.ids.Nodup) (p : Partition)
    (hp : p ∈ (improvedTreePartitioning root latencyLimit memoryLimit linkages).1) :
    p.totalCost = (p.nodes.map (nodeCost root)).sum ∧
    p.totalLatency = (p.nodes.map (nodeLatency root)).sum := by
  obtain ⟨ns, hns, hids, hc, hl⟩ := finalState_totals root latencyLimit memoryLimit linkages p hp
  rw [hc, hl, ← hids, List.map_map, List.map_map]
  constructor
  · congr 1
    apply List.map_congr_left
    intro n hn
    exact (nodeCost_of_mem hid (hns n hn)).symm
  · congr 1
    apply List.map_congr_left
    intro n hn
    exact (nodeLatency_of_mem hid (hns n hn)).symm

/-- Witness of C5: the partition `[1, 3]` of the sample tree under limits 15 and 25. -/
theorem improvedTreePartitioning_totals_witness :
    sampleTree.ids.Nodup ∧ samplePair ∈ (improvedTreePartitioning sampleTree 15 25 []).1 ∧
    (samplePair.totalCost = (samplePair.nodes.map (nodeCost sampleTree)).sum ∧
      samplePair.totalLatency = (samplePair.nodes.map (nodeLatency sampleTree)).sum) :=
  ⟨by decide, by decide,
    improvedTreePartitioning_totals sampleTree 15 25 [] (by decide) samplePair (by decide)⟩

/-- On a tree with distinct ids one iteration records one linkage per child of the
dequeued node and enqueues every child. -/
theorem loopBody_linkage_count (latencyLimit memoryLimit : Int) (s : State) (node : TreeNode)
    (rest : List TreeNode) (n : Nat) (hinv : DistinctInv s) (hq : s.q = node :: rest)
    (h : s.linkages.length + (TreeNode.nodesList s.q).length + 1 = n + s.q.length) :
    (loopBody latencyLimit memoryLimit s node rest).linkages.length +
        (TreeNode.nodesList (loopBody latencyLimit memoryLimit s node rest).q).length + 1 =
      n + (loopBody latencyLimit memoryLimit s node rest).q.length := by
  rw [loopBody_linkages, loopBody_q, filter_children_eq hinv hq]
  rw [hq, TreeNode.nodesList_cons] at h
  simp only [List.length_append, List.length_cons, List.length_map,
    TreeNode.nodesList_append] at h ⊢
  omega

/-- C6 (linkage completeness). For a tree with pairwise distinct ids and for all limits
(and secure flags), `improvedTreePartitioning` called with an empty `linkages` vector
leaves exactly `n - 1` linkages in it, where `n >= 1` is the number of nodes of the tree. -/
theorem improvedTreePartitioning_linkage_count (root : TreeNode)
    (latencyLimit memoryLimit : Int) (hid : root.ids.Nodup) :
    (improvedTreePartitioning root latencyLimit memoryLimit []).2.length = root.size - 1 ∧
    1 ≤ root.size := by
  have hinv := whileLoop_invariant latencyLimit memoryLimit
    (fun s => DistinctInv s ∧
      s.linkages.length + (TreeNode.nodesList s.q).length + 1 = root.size + s.q.length)
    (by
      intro s node rest hs hq
      exact ⟨(loopBody_distinctInv latencyLimit memoryLimit s node rest hs.1 hq).1,
        loopBody_linkage_count latencyLimit memoryLimit s node rest root.size hs.1 hq hs.2⟩)
    root.size (initState root [])
    ⟨initState_distinctInv root [] hid, by
      simp [initState, TreeNode.nodesList, TreeNode.size]⟩
  have hq := finalState_q root latencyLimit memoryLimit []
  have h2 := hinv.2
  simp only [finalState] at hq
  rw [hq] at h2
  simp only [TreeNode.nodesList, List.length_nil] at h2
  simp only [improvedTreePartitioning, finalState]
  omega

/-- Witness of C6 on the five-node sample tree: four linkages. -/
theorem improvedTreePartitioning_linkage_count_witness :
    sampleTree.ids.Nodup ∧
    ((improvedTreePartitioning sampleTree 15 25 []).2.length = sampleTree.size - 1 ∧
      1 ≤ sampleTree.size) :=
  ⟨by decide, improvedTreePartitioning_linkage_count sampleTree 15 25 (by decide)⟩

/-- C7 (concrete scenario). On the chain `0 -> 1 -> 2 -> 3` with every cost 10 and every
latency 5, no secure node, `memoryLimit = 25` and `latencyLimit = 15`,
`improvedTreePartitioning` returns exactly two partitions, in this order: `[0, 1]` and
`[2, 3]` (each with total cost 20 and total latency 10). -/
theorem improvedTreePartitioning_chain4 (linkages : List Linkage) :
    (improvedTreePartitioning chain4 15 25 linkages).1 =
      [{ totalCost := 20, totalLatency := 10, nodes := [0, 1], hasSecureNode := false },
       { totalCost := 20, totalLatency := 10, nodes := [2, 3], hasSecureNode := false }] ∧
    ((improvedTreePartitioning chain4 15 25 linkages).1.map (fun p => p.nodes)) =
      [[0, 1], [2, 3]] :=
  ⟨rfl, rfl⟩

end SASAP

/-! ## The static scoring model -/

/-- A satisfaction term `(limit - total) * 100 / limit` is at most 100 when the limit is
positive and the total is not negative. -/
theorem satisfaction_le_hundred (limit total : Int) (hlimit : 0 < limit) (htotal : 0 ≤ total) :
    ((limit - total : Int) : ℚ) * 100 / (limit : ℚ) ≤ 100 := by
  have h1 : (0 : ℚ) < (limit : ℚ) := by exact_mod_cast hlimit
  have h2 : (0 : ℚ) ≤ (total : ℚ) := by exact_mod_cast htotal
  rw [div_le_iff₀ h1]
  push_cast
  nlinarith

/-- C8 (score bounds, static model). For `costLimit > 0`, `latencyLimit > 0`,
`totalCost >= 0` and `totalLatency >= 0`, the score of `calculatePartitionQoS` and the
scores of both copies of `calculate_partition_qos_satisfaction` lie in `[0, 100]`. -/
theorem static_score_bounds (totalCost totalLatency costLimit latencyLimit : Int)
    (nodes : List Int)
    (hc : 0 < costLimit) (hl : 0 < latencyLimit) (htc : 0 ≤ totalCost) (htl : 0 ≤ totalLatency) :
    (0 ≤ Bicriteria.calculatePartitionQoS totalCost totalLatency costLimit latencyLimit ∧
      Bicriteria.calculatePartitionQoS totalCost totalLatency costLimit latencyLimit ≤ 100) ∧
    (0 ≤ Greedy.calculate_partition_qos_satisfaction
        { totalCost := totalCost, totalLatency := totalLatency, nodes := nodes }
        latencyLimit costLimit ∧
      Greedy.calculate_partition_qos_satisfaction
        { totalCost := totalCost, totalLatency := totalLatency, nodes := nodes }
        latencyLimit costLimit ≤ 100) ∧
    (0 ≤ LeftRight.calculate_partition_qos_satisfaction totalCost totalLatency costLimit
        latencyLimit ∧
      LeftRight.calculate_partition_qos_satisfaction totalCost totalLatency costLimit
        latencyLimit ≤ 100) := by
  have h1 := satisfaction_le_hundred costLimit totalCost hc htc
  have h2 := satisfaction_le_hundred latencyLimit totalLatency hl htl
  refine ⟨⟨?_, ?_⟩, ⟨?_, ?_⟩, ⟨?_, ?_⟩⟩
  · simp only [Bicriteria.calculatePartitionQoS]
    have := le_max_left (0 : ℚ) (((costLimit - totalCost : Int) : ℚ) * 100 / (costLimit : ℚ))
    have := le_max_left (0 : ℚ)
      (((latencyLimit - totalLatency : Int) : ℚ) * 100 / (latencyLimit : ℚ))
    linarith
  · simp only [Bicriteria.calculatePartitionQoS]
    have := max_le (by norm_num : (0 : ℚ) ≤ 100) h1
    have := max_le (by norm_num : (0 : ℚ) ≤ 100) h2
    linarith
  · simp only [Greedy.calculate_partition_qos_satisfaction]
    split
    · norm_num
    · exact le_max_left _ _
  · simp only [Greedy.calculate_partition_qos_satisfaction]
    split
    · norm_num
    · apply max_le (by norm_num); linarith
  · simp only [LeftRight.calculate_partition_qos_satisfaction]
    split
    · norm_num
    · exact le_max_left _ _
  · simp only [LeftRight.calculate_partition_qos_satisfaction]
    split
    · norm_num
    · apply max_le (by norm_num); linarith

/-- Witness of C8: totals 30 and 5 against limits 25 and 15. -/
theorem static_score_bounds_witness :
    (0 ≤ Bicriteria.calculatePartitionQoS 30 5 25 15 ∧
      Bicriteria.calculatePartitionQoS 30 5 25 15 ≤ 100) ∧
    (0 ≤ Greedy.calculate_partition_qos_satisfaction
        { totalCost := 30, totalLatency := 5, nodes := [2] } 15 25 ∧
      Greedy.calculate_partition_qos_satisfaction
        { totalCost := 30, totalLatency := 5, nodes := [2] } 15 25 ≤ 100) ∧
    (0 ≤ LeftRight.calculate_partition_qos_satisfaction 30 5 25 15 ∧
      LeftRight.calculate_partition_qos_satisfaction 30 5 25 15 ≤ 100) :=
  static_score_bounds 30 5 25 15 [2] (by decide) (by decide) (by decide) (by decide)

/-- Counterexample to C9 as stated: with `totalCost = costLimit = 25` and
`totalLatency = latencyLimit = 15`, `calculatePartitionQoS` returns 0, not 100. -/
theorem calculatePartitionQoS_boundary_counterexample :
    (0 : Int) < 25 ∧ (0 : Int) < 15 ∧ Bicriteria.calculatePartitionQoS 25 15 25 15 = 0 ∧
    Bicriteria.calculatePartitionQoS 25 15 25 15 ≠ 100 := by
  norm_num [Bicriteria.calculatePartitionQoS]

/-- C9, amended. For `costLimit > 0` and `latencyLimit > 0`, `calculatePartitionQoS` returns
exactly 0 for a partition with `totalCost = costLimit` and `totalLatency = latencyLimit`
(both satisfaction terms are zero there); it returns exactly 100 for a partition with
`totalCost = 0` and `totalLatency = 0`. -/
theorem calculatePartitionQoS_boundary (costLimit latencyLimit : Int)
    (hc : 0 < costLimit) (hl : 0 < latencyLimit) :
    Bicriteria.calculatePartitionQoS costLimit latencyLimit costLimit latencyLimit = 0 ∧
    Bicriteria.calculatePartitionQoS 0 0 costLimit latencyLimit = 100 := by
  have h1 : (costLimit : ℚ) ≠ 0 := by exact_mod_cast hc.ne'
  have h2 : (latencyLimit : ℚ) ≠ 0 := by exact_mod_cast hl.ne'
  constructor
  · simp [Bicriteria.calculatePartitionQoS]
  · simp only [Bicriteria.calculatePartitionQoS, sub_zero]
    have e1 : (costLimit : ℚ) * 100 / (costLimit : ℚ) = 100 := by field_simp
    have e2 : (latencyLimit : ℚ) * 100 / (latencyLimit : ℚ) = 100 := by field_simp
    rw [e1, e2]
    norm_num

/-- Witness of the amended C9 at limits 25 and 15. -/
theorem calculatePartitionQoS_boundary_witness :
    Bicriteria.calculatePartitionQoS 25 15 25 15 = 0 ∧
    Bicriteria.calculatePartitionQoS 0 0 25 15 = 100 :=
  calculatePartitionQoS_boundary 25 15 (by decide) (by decide)

/-- C10 (full satisfaction, branching scorer). Both copies of
`calculate_partition_qos_satisfaction` return exactly 100 whenever
`totalCost <= memoryLimit` and `totalLatency <= latencyLimit`, for positive limits; in
particular at `totalCost = memoryLimit` and `totalLatency = latencyLimit`. -/
theorem branching_score_full (totalCost totalLatency memoryLimit latencyLimit : Int)
    (nodes : List Int) (hm : 0 < memoryLimit) (hl : 0 < latencyLimit)
    (hc : totalCost ≤ memoryLimit) (ht : totalLatency ≤ latencyLimit) :
    Greedy.calculate_partition_qos_satisfaction
        { totalCost := totalCost, totalLatency := totalLatency, nodes := nodes }
        latencyLimit memoryLimit = 100 ∧
    LeftRight.calculate_partition_qos_satisfaction totalCost totalLatency memoryLimit
        latencyLimit = 100 ∧
    Greedy.calculate_partition_qos_satisfaction
        { totalCost := memoryLimit, totalLatency := latencyLimit, nodes := nodes }
        latencyLimit memoryLimit = 100 ∧
    LeftRight.calculate_partition_qos_satisfaction memoryLimit latencyLimit memoryLimit
        latencyLimit = 100 := by
  have _hm := hm
  have _hl := hl
  simp [Greedy.calculate_partition_qos_satisfaction,
    LeftRight.calculate_partition_qos_satisfaction, hc, ht]

/-- Witness of C10: totals 20 and 10 against limits 25 and 15. -/
theorem branching_score_full_witness :
    Greedy.calculate_partition_qos_satisfaction
        { totalCost := 20, totalLatency := 10, nodes := [0, 1] } 15 25 = 100 ∧
    LeftRight.calculate_partition_qos_satisfaction 20 10 25 15 = 100 ∧
    Greedy.calculate_partition_qos_satisfaction
        { totalCost := 25, totalLatency := 15, nodes := [0, 1] } 15 25 = 100 ∧
    LeftRight.calculate_partition_qos_satisfaction 25 15 25 15 = 100 :=
  branching_score_full 20 10 25 15 [0, 1] (by decide) (by decide) (by decide) (by decide)

/-- Counterexample to C11 as stated: with limits 10 and 10, a node of cost 11 and latency 5
placed alone scores 25 under `calculatePartitionQoS` and 20 under both copies of
`calculate_partition_qos_satisfaction`, not 0. -/
theorem oversized_node_score_counterexample :
    (0 : Int) < 10 ∧ (10 : Int) < 11 ∧ (0 : Int) ≤ 5 ∧
    Bicriteria.calculatePartitionQoS 11 5 10 10 = 25 ∧
    Greedy.calculate_partition_qos_satisfaction
      { totalCost := 11, totalLatency := 5, nodes := [0] } 10 10 = 20 ∧
    LeftRight.calculate_partition_qos_satisfaction 11 5 10 10 = 20 := by
  norm_num [Bicriteria.calculatePartitionQoS, Greedy.calculate_partition_qos_satisfaction,
    LeftRight.calculate_partition_qos_satisfaction]

/-- A satisfaction term `(limit - total) * 100 / limit` is negative when the total exceeds
a positive limit. -/
theorem satisfaction_neg (limit total : Int) (hlimit : 0 < limit) (htotal : limit < total) :
    ((limit - total : Int) : ℚ) * 100 / (limit : ℚ) < 0 := by
  have h1 : (0 : ℚ) < (limit : ℚ) := by exact_mod_cast hlimit
  have h2 : (limit : ℚ) < (total : ℚ) := by exact_mod_cast htotal
  apply div_neg_of_neg_of_pos _ h1
  push_cast
  nlinarith

/-- A satisfaction term `(limit - total) * 100 / limit` is positive exactly when the total
is below a positive limit. -/
theorem satisfaction_pos_iff (limit total : Int) (hlimit : 0 < limit) :
    0 < ((limit - total : Int) : ℚ) * 100 / (limit : ℚ) ↔ total < limit := by
  have h1 : (0 : ℚ) < (limit : ℚ) := by exact_mod_cast hlimit
  rw [lt_div_iff₀ h1, zero_mul]
  constructor
  · intro h
    have h2 : (0 : ℚ) < ((limit - total : Int) : ℚ) := by nlinarith
    have h3 : (0 : Int) < limit - total := by exact_mod_cast h2
    omega
  · intro h
    have h3 : (0 : Int) < limit - total := by omega
    have h2 : (0 : ℚ) < ((limit - total : Int) : ℚ) := by exact_mod_cast h3
    nlinarith

/-- C11, amended. For `costLimit > 0`, `latencyLimit > 0`, a node with `cost > costLimit` and
`latency >= 0` placed alone: the static score is not negative under `calculatePartitionQoS`
and under both copies of `calculate_partition_qos_satisfaction`; it is exactly 0 under all
three when `latency >= latencyLimit` as well; and under `calculatePartitionQoS` it is 0 only
then (the cost term is clamped to 0, the latency term still counts). -/
theorem oversized_node_score (cost latency costLimit latencyLimit : Int) (nodes : List Int)
    (hc : 0 < costLimit) (hl : 0 < latencyLimit) (hcost : costLimit < cost)
    (hlat : 0 ≤ latency) :
    (0 ≤ Bicriteria.calculatePartitionQoS cost latency costLimit latencyLimit ∧
      0 ≤ Greedy.calculate_partition_qos_satisfaction
        { totalCost := cost, totalLatency := latency, nodes := nodes } latencyLimit costLimit ∧
      0 ≤ LeftRight.calculate_partition_qos_satisfaction cost latency costLimit latencyLimit) ∧
    (latencyLimit ≤ latency →
      Bicriteria.calculatePartitionQoS cost latency costLimit latencyLimit = 0 ∧
      Greedy.calculate_partition_qos_satisfaction
        { totalCost := cost, totalLatency := latency, nodes := nodes }
        latencyLimit costLimit = 0 ∧
      LeftRight.calculate_partition_qos_satisfaction cost latency costLimit latencyLimit = 0) ∧
    (Bicriteria.calculatePartitionQoS cost latency costLimit latencyLimit = 0 ↔
      latencyLimit ≤ latency) := by
  have _h := hlat
  have hcs := satisfaction_neg costLimit cost hc hcost
  have hpos := satisfaction_pos_iff latencyLimit latency hl
  have hnot : ¬ (cost ≤ costLimit ∧ latency ≤ latencyLimit) := by omega
  have hclamp : Bicriteria.calculatePartitionQoS cost latency costLimit latencyLimit =
      max 0 (((latencyLimit - latency : Int) : ℚ) * 100 / (latencyLimit : ℚ)) / 2 := by
    simp only [Bicriteria.calculatePartitionQoS]
    rw [max_eq_left hcs.le, zero_add]
  refine ⟨⟨?_, ?_, ?_⟩, ?_, ?_⟩
  · rw [hclamp]
    have := le_max_left (0 : ℚ) (((latencyLimit - latency : Int) : ℚ) * 100 / (latencyLimit : ℚ))
    linarith
  · simp only [Greedy.calculate_partition_qos_satisfaction, if_neg hnot]
    exact le_max_left _ _
  · simp only [LeftRight.calculate_partition_qos_satisfaction, if_neg hnot]
    exact le_max_left _ _
  · intro hge
    have hls : ((latencyLimit - latency : Int) : ℚ) * 100 / (latencyLimit : ℚ) ≤ 0 := by
      by_contra hcon
      exact absurd (hpos.1 (not_le.1 hcon)) (by omega)
    refine ⟨?_, ?_, ?_⟩
    · rw [hclamp, max_eq_left hls]; norm_num
    · simp only [Greedy.calculate_partition_qos_satisfaction, if_neg hnot]
      apply max_eq_left
      linarith
    · simp only [LeftRight.calculate_partition_qos_satisfaction, if_neg hnot]
      apply max_eq_left
      linarith
  · rw [hclamp]
    constructor
    · intro h0
      by_contra hcon
      have hlt := hpos.2 (not_le.1 hcon)
      rw [max_eq_right hlt.le] at h0
      linarith
    · intro hge
      have hls : ((latencyLimit - latency : Int) : ℚ) * 100 / (latencyLimit : ℚ) ≤ 0 := by
        by_contra hcon
        exact absurd (hpos.1 (not_le.1 hcon)) (by omega)
      rw [max_eq_left hls]; norm_num

/-- Witness of the amended C11: cost 11 and latency 12 against limits 10 and 10. -/
theorem oversized_node_score_witness :
    (0 ≤ Bicriteria.calculatePartitionQoS 11 12 10 10 ∧
      0 ≤ Greedy.calculate_partition_qos_satisfaction
        { totalCost := 11, totalLatency := 12, nodes := [0] } 10 10 ∧
      0 ≤ LeftRight.calculate_partition_qos_satisfaction 11 12 10 10) ∧
    ((10 : Int) ≤ 12 →
      Bicriteria.calculatePartitionQoS 11 12 10 10 = 0 ∧
      Greedy.calculate_partition_qos_satisfaction
        { totalCost := 11, totalLatency := 12, nodes := [0] } 10 10 = 0 ∧
      LeftRight.calculate_partition_qos_satisfaction 11 12 10 10 = 0) ∧
    (Bicriteria.calculatePartitionQoS 11 12 10 10 = 0 ↔ (10 : Int) ≤ 12) :=
  oversized_node_score 11 12 10 10 [0] (by decide) (by decide) (by decide) (by decide)

/-! ## The dynamic-penalty model of `Greedy Tree Partitioning.cpp` -/

namespace Greedy

theorem adjusted_qos_ge (costAt latencyAt : Int → Int) (latencyLimit memoryLimit : Int)
    (partition : List Int) (r : Nat) :
    10 ≤ adjusted_qos costAt latencyAt latencyLimit memoryLimit partition r := by
  simp only [adjusted_qos]
  exact le_max_left _ _

/-- The outer loop counts the partitions and adds at least 10 for each. -/
theorem overallLoop_spec (costAt latencyAt : Int → Int) (latencyLimit memoryLimit : Int)
    (rand : Nat → Nat) (partitions : List (List Int)) (calls : Nat) (acc : ℚ × Nat) :
    (overallLoop costAt latencyAt latencyLimit memoryLimit rand partitions calls acc).2 =
        acc.2 + partitions.length ∧
    acc.1 + 10 * (partitions.length : ℚ) ≤
      (overallLoop costAt latencyAt latencyLimit memoryLimit rand partitions calls acc).1 := by
  induction partitions generalizing calls acc with
  | nil => simp [overallLoop]
  | cons p ps ih =>
    obtain ⟨t, n⟩ := acc
    simp only [overallLoop, List.length_cons]
    obtain ⟨h1, h2⟩ := ih (calls + 1)
      (t + adjusted_qos costAt latencyAt latencyLimit memoryLimit p (rand calls), n + 1)
    refine ⟨by rw [h1]; simp only; omega, ?_⟩
    have h3 := adjusted_qos_ge costAt latencyAt latencyLimit memoryLimit p (rand calls)
    push_cast
    simp only at h2
    linarith

end Greedy

/-- C12 (dynamic-penalty bounds). For a non-empty list of partitions, positive limits,
any values of the node lookups and any sequence of random samples,
`calculate_overall_qos_satisfaction` returns a value in `[10, 95]`; and the adjusted score
of every partition, for every sample, is at least 10. -/
theorem overall_qos_bounds (costAt latencyAt : Int → Int) (rand : Nat → Nat)
    (partitions : List (List Int)) (latencyLimit memoryLimit : Int)
    (hne : partitions ≠ []) (hl : 0 < latencyLimit) (hm : 0 < memoryLimit) :
    (10 ≤ Greedy.calculate_overall_qos_satisfaction costAt latencyAt rand partitions
        latencyLimit memoryLimit ∧
      Greedy.calculate_overall_qos_satisfaction costAt latencyAt rand partitions
        latencyLimit memoryLimit ≤ 95) ∧
    ∀ (partition : List Int) (r : Nat),
      10 ≤ Greedy.adjusted_qos costAt latencyAt latencyLimit memoryLimit partition r := by
  have _hl := hl
  have _hm := hm
  refine ⟨⟨?_, ?_⟩, fun p r => Greedy.adjusted_qos_ge costAt latencyAt latencyLimit memoryLimit p r⟩
  · obtain ⟨h1, h2⟩ := Greedy.overallLoop_spec costAt latencyAt latencyLimit memoryLimit rand
      partitions 0 (0, 0)
    have hlen : 0 < partitions.length := List.length_pos.2 hne
    simp only [Greedy.calculate_overall_qos_satisfaction]
    have hpos : (Greedy.overallLoop costAt latencyAt latencyLimit memoryLimit rand partitions 0
        (0, 0)).2 > 0 := by rw [h1]; simpa using hlen
    rw [if_pos hpos]
    apply le_min _ (by norm_num)
    have hq : (0 : ℚ) < ((Greedy.overallLoop costAt latencyAt latencyLimit memoryLimit rand
        partitions 0 (0, 0)).2 : ℚ) := by exact_mod_cast hpos
    rw [le_div_iff₀ hq, h1]
    simp only [zero_add] at h2 ⊢
    exact h2
  · simp only [Greedy.calculate_overall_qos_satisfaction]
    exact min_le_right _ _

/-- Witness of C12: two partitions, every lookup yielding cost 10 and latency 5, limits 50
and 100, samples 0, 7, 14, ... -/
theorem overall_qos_bounds_witness :
    ([[0, 1], [2]] : List (List Int)) ≠ [] ∧
    ((10 ≤ Greedy.calculate_overall_qos_satisfaction (fun _ => 10) (fun _ => 5)
        (fun k => 7 * k) [[0, 1], [2]] 50 100 ∧
      Greedy.calculate_overall_qos_satisfaction (fun _ => 10) (fun _ => 5)
        (fun k => 7 * k) [[0, 1], [2]] 50 100 ≤ 95) ∧
    ∀ (partition : List Int) (r : Nat),
      10 ≤ Greedy.adjusted_qos (fun _ => 10) (fun _ => 5) 50 100 partition r) :=
  ⟨by decide, overall_qos_bounds (fun _ => 10) (fun _ => 5) (fun k => 7 * k) [[0, 1], [2]]
    50 100 (by decide) (by decide) (by decide)⟩

/-! ## `SASAP.cpp`: secure channel and argument check -/

namespace SASAP

/-- C17 (secure-channel round trip). For every string `s`, the empty string and strings that
start with `"encrypted("` or end with `")"` included, `decryptData (encryptData s) = s`. -/
theorem decryptData_encryptData (s : List Char) : decryptData (encryptData s) = s := by
  have hfind : find (encryptData s) "encrypted(".toList = some 0 := by
    simp [find, encryptData, findFrom]
  have hlast : (encryptData s).getLast? = some ')' := by
    have h : encryptData s = ("encrypted(".toList ++ s) ++ [')'] := rfl
    rw [h, List.getLast?_concat]
  have hlen : (encryptData s).length = s.length + 11 := by
    simp [encryptData]
  rw [decryptData, if_pos ⟨hfind, hlast⟩, hlen]
  simp [substr, encryptData]

/-- C18 (configuration validation). With exactly three arguments (`argc = 4`) parsed to the
integers `numNodes`, `numVCPUs`, `secureNodeCount`, `main` returns 1 before generating a
tree if and only if `numNodes < 1` or `numNodes > 500` or `numVCPUs < 1` or
`secureNodeCount < 0` or `secureNodeCount > numNodes`; and it returns 1 whenever
`argc` is not 4. -/
theorem mainCheck_spec (argc numNodes numVCPUs secureNodeCount : Int) :
    (mainCheck 4 numNodes numVCPUs secureNodeCount = some 1 ↔
      (numNodes < 1 ∨ numNodes > 500 ∨ numVCPUs < 1 ∨ secureNodeCount < 0 ∨
        secureNodeCount > numNodes)) ∧
    (mainCheck 4 numNodes numVCPUs secureNodeCount = none ↔
      ¬ (numNodes < 1 ∨ numNodes > 500 ∨ numVCPUs < 1 ∨ secureNodeCount < 0 ∨
        secureNodeCount > numNodes)) ∧
    (argc ≠ 4 → mainCheck argc numNodes numVCPUs secureNodeCount = some 1) := by
  refine ⟨?_, ?_, ?_⟩
  · by_cases h : numNodes < 1 ∨ numNodes > 500 ∨ numVCPUs < 1 ∨ secureNodeCount < 0 ∨
        secureNodeCount > numNodes
    · simp [mainCheck, h]
    · simp [mainCheck, h]
  · by_cases h : numNodes < 1 ∨ numNodes > 500 ∨ numVCPUs < 1 ∨ secureNodeCount < 0 ∨
        secureNodeCount > numNodes
    · simp [mainCheck, h]
    · simp [mainCheck, h]
  · intro h
    simp [mainCheck, h]

end SASAP

/-! ## `Bicriteria Approximation Scheme.cpp` -/

namespace Bicriteria

theorem TreeNode.nodes_unfold (t : TreeNode) : t.nodes = t :: TreeNode.nodesList t.children := by
  cases t; simp [TreeNode.nodes, TreeNode.children]

theorem TreeNode.nodesList_unfold (t : TreeNode) (ts : List TreeNode) :
    TreeNode.nodesList (t :: ts) = t :: (TreeNode.nodesList t.children ++ TreeNode.nodesList ts) := by
  simp [TreeNode.nodesList, TreeNode.nodes_unfold t]

mutual
/-- On a non-null root the search returns the first node of the pre-order with the id. -/
theorem findTreeNodeIn_eq : ∀ (t : TreeNode) (id : Int),
    findTreeNodeIn t id = t.nodes.find? (fun n => decide (n.id = id))
  | .mk i c l cs, id => by
    by_cases h : i = id
    · simp [findTreeNodeIn, TreeNode.nodes, TreeNode.id, h]
    · simp [findTreeNodeIn, TreeNode.nodes, TreeNode.id, h, List.find?_cons,
        findTreeNodeChildren_eq cs id]
/-- The loop over the children returns the first node of the forest's pre-order with the id. -/
theorem findTreeNodeChildren_eq : ∀ (cs : List TreeNode) (id : Int),
    findTreeNodeChildren cs id = (TreeNode.nodesList cs).find? (fun n => decide (n.id = id))
  | [], id => by simp [findTreeNodeChildren, TreeNode.nodesList]
  | t :: ts, id => by
    simp only [findTreeNodeChildren, TreeNode.nodesList, List.find?_append]
    rw [findTreeNodeIn_eq t id, findTreeNodeChildren_eq ts id]
    cases List.find? (fun n => decide (n.id = id)) t.nodes <;> simp
end

end Bicriteria

/-- C16 (lookup by id). On a null root `findTreeNode` returns null. On a tree it returns the
first node of the pre-order whose id is `id`: if some node has that id, the result is a node
`found` of the tree with `found.id = id` and no node before it in pre-order has that id; and
the result is null if and only if no node of the tree has that id. -/
theorem findTreeNode_spec (root : Bicriteria.TreeNode) (id : Int) :
    Bicriteria.findTreeNode none id = none ∧
    Bicriteria.findTreeNode (some root) id = root.nodes.find? (fun n => decide (n.id = id)) ∧
    ((∃ n ∈ root.nodes, n.id = id) →
      ∃ found pre post, Bicriteria.findTreeNode (some root) id = some found ∧ found.id = id ∧
        root.nodes = pre ++ found :: post ∧ ∀ m ∈ pre, m.id ≠ id) ∧
    (Bicriteria.findTreeNode (some root) id = none ↔ ∀ n ∈ root.nodes, n.id ≠ id) := by
  have heq : Bicriteria.findTreeNode (some root) id =
      root.nodes.find? (fun n => decide (n.id = id)) := by
    simp [Bicriteria.findTreeNode, Bicriteria.findTreeNodeIn_eq]
  refine ⟨rfl, heq, ?_, ?_⟩
  · rintro ⟨n, hn, hid⟩
    cases hfind : root.nodes.find? (fun n => decide (n.id = id)) with
    | none =>
      rw [List.find?_eq_none] at hfind
      exact absurd (hfind n hn) (by simp [hid])
    | some found =>
      obtain ⟨hp, pre, post, hsplit, hpre⟩ := List.find?_eq_some.1 hfind
      refine ⟨found, pre, post, by rw [heq, hfind], by simpa using hp, hsplit, ?_⟩
      intro m hm
      simpa using hpre m hm
  · rw [heq, List.find?_eq_none]
    simp

namespace Bicriteria

theorem mem_setInsert {α : Type} [DecidableEq α] (x y : α) (s : List α) :
    y ∈ setInsert x s ↔ y = x ∨ y ∈ s := by
  unfold setInsert
  by_cases h : x ∈ s
  · rw [if_pos h]
    constructor
    · exact Or.inr
    · rintro (rfl | h') <;> assumption
  · rw [if_neg h]
    simp [or_comm]

theorem mem_insertAll {α : Type} [DecidableEq α] (y : α) (s xs : List α) :
    y ∈ insertAll s xs ↔ y ∈ s ∨ y ∈ xs := by
  induction xs generalizing s with
  | nil => simp [insertAll]
  | cons x xs ih =>
    have : insertAll s (x :: xs) = insertAll (setInsert x s) xs := rfl
    rw [this, ih, mem_setInsert]
    simp only [List.mem_cons]
    tauto

theorem insertAll_append {α : Type} [DecidableEq α] (s xs ys : List α) :
    insertAll s (xs ++ ys) = insertAll (insertAll s xs) ys := by
  simp [insertAll, List.foldl_append]

theorem insertAll_cons {α : Type} [DecidableEq α] (s : List α) (x : α) (xs : List α) :
    insertAll s (x :: xs) = insertAll (setInsert x s) xs := rfl

/-- Two positions `addr ++ [j]` and `addr ++ [k]` above the same position are equal. -/
theorem child_index_unique {addr a : List Nat} {j k : Nat}
    (hj : (addr ++ [j]) <+: a) (hk : (addr ++ [k]) <+: a) : j = k := by
  have hle : (addr ++ [j]).length ≤ (addr ++ [k]).length := by simp
  have hpre := List.prefix_of_prefix_length_le hj hk hle
  have heq := hpre.eq_of_length (by simp)
  simpa using heq

theorem not_prefix_self_snoc (addr : List Nat) (j : Nat) : ¬ (addr ++ [j]) <+: addr := by
  intro h
  have := h.length_le
  simp at this

mutual
/-- In a tree, `dfs` started at an unvisited position adds to `currentPartition` exactly the
ids of `reach`, and marks only positions at or below its own. -/
theorem dfs_spec : ∀ (node : TreeNode) (addr : List Nat) (lim : Int) (cur : List Int)
    (vis : List (List Nat)), (∀ a ∈ vis, ¬ addr <+: a) →
    (dfs node addr lim (cur, vis)).1 = insertAll cur (reach node lim) ∧
    ∀ a ∈ (dfs node addr lim (cur, vis)).2, a ∈ vis ∨ addr <+: a
  | .mk i c l cs, addr, lim, cur, vis, hfresh => by
    have hpre : ∀ a ∈ setInsert addr vis, ∀ j, 0 ≤ j → ¬ (addr ++ [j]) <+: a := by
      intro a ha j _ hj
      rcases (mem_setInsert addr a vis).1 ha with rfl | ha
      · exact not_prefix_self_snoc _ _ hj
      · exact hfresh a ha ((List.prefix_append addr [j]).trans hj)
    obtain ⟨h1, h2⟩ := dfsChildren_spec l addr lim cs 0 (setInsert i cur) (setInsert addr vis) hpre
    refine ⟨?_, ?_⟩
    · simp only [dfs, reach, insertAll_cons]
      exact h1
    · intro a ha
      simp only [dfs] at ha
      rcases h2 a ha with h | ⟨j, -, hj⟩
      · rcases (mem_setInsert addr a vis).1 h with rfl | h
        · exact Or.inr (List.prefix_refl _)
        · exact Or.inl h
      · exact Or.inr ((List.prefix_append addr [j]).trans hj)
/-- The loop over the children, from child number `k` on, in a tree. -/
theorem dfsChildren_spec : ∀ (l : Int) (addr : List Nat) (lim : Int) (cs : List TreeNode)
    (k : Nat) (cur : List Int) (vis : List (List Nat)),
    (∀ a ∈ vis, ∀ j, k ≤ j → ¬ (addr ++ [j]) <+: a) →
    (dfsChildren l addr lim cs k (cur, vis)).1 = insertAll cur (reachChildren l lim cs) ∧
    ∀ a ∈ (dfsChildren l addr lim cs k (cur, vis)).2,
      a ∈ vis ∨ ∃ j, k ≤ j ∧ (addr ++ [j]) <+: a
  | l, addr, lim, [], k, cur, vis, _ => by
    refine ⟨by simp [dfsChildren, reachChildren, insertAll], fun a ha => Or.inl ?_⟩
    simpa [dfsChildren] using ha
  | l, addr, lim, child :: rest, k, cur, vis, hfresh => by
    have hnot : (addr ++ [k]) ∉ vis := fun hmem =>
      hfresh _ hmem k (Nat.le_refl k) (List.prefix_refl _)
    by_cases hlat : l + child.latency ≤ lim
    · obtain ⟨h1, h2⟩ := dfs_spec child (addr ++ [k]) (lim - l) cur vis
        (fun a ha => hfresh a ha k (Nat.le_refl k))
      have hfresh2 : ∀ a ∈ (dfs child (addr ++ [k]) (lim - l) (cur, vis)).2, ∀ j, k + 1 ≤ j →
          ¬ (addr ++ [j]) <+: a := by
        intro a ha j hj hpre
        rcases h2 a ha with h | h
        · exact hfresh a h j (by omega) hpre
        · have := child_index_unique hpre h
          omega
      obtain ⟨h3, h4⟩ := dfsChildren_spec l addr lim rest (k + 1)
        (dfs child (addr ++ [k]) (lim - l) (cur, vis)).1
        (dfs child (addr ++ [k]) (lim - l) (cur, vis)).2 hfresh2
      have hstep : dfsChildren l addr lim (child :: rest) k (cur, vis) =
          dfsChildren l addr lim rest (k + 1) (dfs child (addr ++ [k]) (lim - l) (cur, vis)) := by
        simp [dfsChildren, hnot, hlat]
      rw [hstep]
      refine ⟨?_, ?_⟩
      · rw [h3, h1]
        simp only [reachChildren, if_pos hlat, insertAll_append]
      · intro a ha
        rcases h4 a ha with h | ⟨j, hj, hpre⟩
        · rcases h2 a h with h | h
          · exact Or.inl h
          · exact Or.inr ⟨k, Nat.le_refl k, h⟩
        · exact Or.inr ⟨j, by omega, hpre⟩
    · have hfresh2 : ∀ a ∈ vis, ∀ j, k + 1 ≤ j → ¬ (addr ++ [j]) <+: a :=
        fun a ha j hj => hfresh a ha j (by omega)
      obtain ⟨h3, h4⟩ := dfsChildren_spec l addr lim rest (k + 1) cur vis hfresh2
      have hstep : dfsChildren l addr lim (child :: rest) k (cur, vis) =
          dfsChildren l addr lim rest (k + 1) (cur, vis) := by
        simp [dfsChildren, hlat]
      rw [hstep]
      refine ⟨?_, ?_⟩
      · rw [h3]
        simp only [reachChildren, if_neg hlat, List.nil_append]
      · intro a ha
        rcases h4 a ha with h | ⟨j, hj, hpre⟩
        · exact Or.inl h
        · exact Or.inr ⟨j, by omega, hpre⟩
end

end Bicriteria

namespace Bicriteria

theorem reach_head (c : TreeNode) (lim : Int) : c.id ∈ reach c lim := by
  cases c; simp [reach, TreeNode.id]

theorem partitionOf_ne_nil (c : TreeNode) (lim : Int) : partitionOf c lim ≠ [] := by
  intro h
  have : c.id ∈ partitionOf c lim := (mem_insertAll _ _ _).2 (Or.inr (reach_head c lim))
  rw [h] at this
  cases this

/-- In a tree the loop over the children of the root builds one partition per child. -/
theorem bicriteriaLoop_spec (latencyLimit costLimit : Int) (cs : List TreeNode) (k : Nat)
    (vis : List (List Nat)) (cf : List (List Int)) (q : ℚ)
    (hfresh : ∀ a ∈ vis, ∀ j, k ≤ j → ¬ [j] <+: a) :
    (bicriteriaLoop latencyLimit costLimit cs k (vis, cf, q)).2 =
      (cf ++ cs.map (fun c => partitionOf c latencyLimit),
        q + (cs.map (fun c => addedScore c latencyLimit costLimit)).sum) := by
  induction cs generalizing k vis cf q with
  | nil => simp [bicriteriaLoop]
  | cons c rest ih =>
    have hnot : [k] ∉ vis := fun hmem => hfresh _ hmem k (Nat.le_refl k) (List.prefix_refl _)
    obtain ⟨h1, h2⟩ := dfs_spec c [k] latencyLimit [] vis
      (fun a ha => hfresh a ha k (Nat.le_refl k))
    have hcur : (dfs c [k] latencyLimit ([], vis)).1 = partitionOf c latencyLimit := h1
    have hfresh2 : ∀ a ∈ (dfs c [k] latencyLimit ([], vis)).2, ∀ j, k + 1 ≤ j →
        ¬ [j] <+: a := by
      intro a ha j hj hpre
      rcases h2 a ha with h | h
      · exact hfresh a h j (by omega) hpre
      · have hjk : j = k := @child_index_unique [] a j k hpre h
        omega
    have hstep : bicriteriaLoop latencyLimit costLimit (c :: rest) k (vis, cf, q) =
        bicriteriaLoop latencyLimit costLimit rest (k + 1)
          ((dfs c [k] latencyLimit ([], vis)).2, cf ++ [partitionOf c latencyLimit],
            q + addedScore c latencyLimit costLimit) := by
      simp only [bicriteriaLoop, hnot, not_false_eq_true, if_true, hcur, ne_eq,
        partitionOf_ne_nil c latencyLimit, addedScore]
    rw [hstep, ih (k + 1) _ _ _ hfresh2]
    simp [add_assoc]

/-- The result of `bicriteriaApproximation` on a tree: one partition per child of the root,
in child order, and one added score per partition. -/
theorem bicriteriaApproximation_eq (root : TreeNode) (latencyLimit costLimit : Int)
    (cf : List (List Int)) (q : ℚ) :
    bicriteriaApproximation root latencyLimit costLimit cf q =
      (cf ++ root.children.map (fun c => partitionOf c latencyLimit),
        q + (root.children.map (fun c => addedScore c latencyLimit costLimit)).sum) := by
  simp only [bicriteriaApproximation]
  exact bicriteriaLoop_spec latencyLimit costLimit root.children 0 [] cf q (by simp)

end Bicriteria

namespace Bicriteria

theorem TreeNode.ids_eq (t : TreeNode) :
    t.ids = t.id :: (TreeNode.nodesList t.children).map TreeNode.id := by
  simp [TreeNode.ids, TreeNode.nodes_unfold t]

theorem nodes_sublist_nodesList {c : TreeNode} {cs : List TreeNode} (h : c ∈ cs) :
    c.nodes.Sublist (TreeNode.nodesList cs) := by
  induction cs with
  | nil => cases h
  | cons x xs ih =>
    simp only [TreeNode.nodesList]
    rcases List.mem_cons.1 h with rfl | h
    · exact List.sublist_append_left _ _
    · exact (ih h).trans (List.sublist_append_right _ _)

mutual
/-- A descent from a node reaches only ids of its subtree. -/
theorem reach_subset : ∀ (t : TreeNode) (lim : Int) (x : Int), x ∈ reach t lim → x ∈ t.ids
  | .mk i c l cs, lim, x, h => by
    simp only [reach, List.mem_cons] at h
    rw [TreeNode.ids_eq]
    rcases h with rfl | h
    · exact List.mem_cons_self _ _
    · exact List.mem_cons_of_mem _ (reachChildren_subset l lim cs x h)
/-- The descents through the children reach only ids of the subtrees of the children. -/
theorem reachChildren_subset : ∀ (l lim : Int) (cs : List TreeNode) (x : Int),
    x ∈ reachChildren l lim cs → x ∈ (TreeNode.nodesList cs).map TreeNode.id
  | _, _, [], x, h => by simp [reachChildren] at h
  | l, lim, child :: rest, x, h => by
    simp only [reachChildren, List.mem_append] at h
    simp only [TreeNode.nodesList, List.map_append, List.mem_append]
    rcases h with h | h
    · left
      by_cases hlat : l + child.latency ≤ lim
      · rw [if_pos hlat] at h
        exact reach_subset child (lim - l) x h
      · rw [if_neg hlat] at h
        cases h
    · exact Or.inr (reachChildren_subset l lim rest x h)
end

theorem partitionOf_subset (c : TreeNode) (lim : Int) (x : Int) (h : x ∈ partitionOf c lim) :
    x ∈ c.ids := by
  rcases (mem_insertAll x [] (reach c lim)).1 h with h | h
  · cases h
  · exact reach_subset c lim x h

/-- With distinct ids in a forest, the id lists of two different trees of it are disjoint. -/
theorem pairwise_disjoint_ids (cs : List TreeNode)
    (h : ((TreeNode.nodesList cs).map TreeNode.id).Nodup) :
    cs.Pairwise (fun a b => ∀ x ∈ a.ids, x ∉ b.ids) := by
  induction cs with
  | nil => exact List.Pairwise.nil
  | cons c cs ih =>
    simp only [TreeNode.nodesList, List.map_append] at h
    rw [List.nodup_append] at h
    obtain ⟨-, h2, hdisj⟩ := h
    refine List.Pairwise.cons ?_ (ih h2)
    intro b hb x hx hxb
    have hsub : x ∈ (TreeNode.nodesList cs).map TreeNode.id :=
      ((nodes_sublist_nodesList hb).map TreeNode.id).subset hxb
    exact hdisj hx hsub

end Bicriteria

/-- C20 (Strategy B partition count). On every tree and for all limits,
`bicriteriaApproximation` called with an empty `compositeFunctions` produces exactly one
partition per direct child of the root, in child order: the partition at position `k` is
the one grown from child number `k` and contains its id. For a root without children it
produces no partition and leaves `overallQoS` unchanged. -/
theorem bicriteriaApproximation_partition_count (root : Bicriteria.TreeNode)
    (latencyLimit costLimit : Int) (overallQoS : ℚ) :
    (Bicriteria.bicriteriaApproximation root latencyLimit costLimit [] overallQoS).1.length =
      root.children.length ∧
    (∀ (k : Nat) (c : Bicriteria.TreeNode), root.children[k]? = some c →
      (Bicriteria.bicriteriaApproximation root latencyLimit costLimit [] overallQoS).1[k]? =
        some (Bicriteria.partitionOf c latencyLimit) ∧
      c.id ∈ Bicriteria.partitionOf c latencyLimit) ∧
    (root.children = [] →
      Bicriteria.bicriteriaApproximation root latencyLimit costLimit [] overallQoS =
        ([], overallQoS)) := by
  rw [Bicriteria.bicriteriaApproximation_eq]
  refine ⟨by simp, ?_, ?_⟩
  · intro k c hk
    refine ⟨by simp [hk], ?_⟩
    exact (Bicriteria.mem_insertAll _ _ _).2 (Or.inr (Bicriteria.reach_head c latencyLimit))
  · intro h
    simp [h]

/-- C15 (Strategy B disjointness). For a tree with pairwise distinct ids and for all limits,
no id is a member of two different partitions produced by `bicriteriaApproximation`. -/
theorem bicriteriaApproximation_disjoint (root : Bicriteria.TreeNode)
    (latencyLimit costLimit : Int) (overallQoS : ℚ) (hid : root.ids.Nodup) :
    (Bicriteria.bicriteriaApproximation root latencyLimit costLimit [] overallQoS).1.Pairwise
      (fun a b => ∀ x ∈ a, x ∉ b) := by
  rw [Bicriteria.bicriteriaApproximation_eq]
  simp only [List.nil_append]
  rw [List.pairwise_map]
  rw [Bicriteria.TreeNode.ids_eq, List.nodup_cons] at hid
  refine (Bicriteria.pairwise_disjoint_ids root.children hid.2).imp ?_
  intro a b hab x hxa hxb
  exact hab x (Bicriteria.partitionOf_subset a latencyLimit x hxa)
    (Bicriteria.partitionOf_subset b latencyLimit x hxb)

/-- Witness of C15 on the sample tree with `latencyLimit = 30`. -/
theorem bicriteriaApproximation_disjoint_witness :
    Bicriteria.sampleTree.ids.Nodup ∧
    (Bicriteria.bicriteriaApproximation Bicriteria.sampleTree 30 100 [] 0).1.Pairwise
      (fun a b => ∀ x ∈ a, x ∉ b) :=
  ⟨by decide, bicriteriaApproximation_disjoint Bicriteria.sampleTree 30 100 0 (by decide)⟩

namespace Bicriteria

/-- Every path from a node starts at that node. -/
theorem pathsFrom_head (t : TreeNode) (p : List TreeNode) (h : p ∈ pathsFrom t) :
    ∃ p', p = t :: p' := by
  cases t with
  | mk i c l cs =>
    simp only [pathsFrom, List.mem_cons, List.mem_map] at h
    rcases h with rfl | ⟨q, -, rfl⟩
    · exact ⟨[], rfl⟩
    · exact ⟨q, rfl⟩

theorem pathsFromChildren_ne_nil (cs : List TreeNode) (p : List TreeNode)
    (h : p ∈ pathsFromChildren cs) : p ≠ [] := by
  induction cs with
  | nil => simp [pathsFromChildren] at h
  | cons t ts ih =>
    simp only [pathsFromChildren, List.mem_append] at h
    rcases h with h | h
    · obtain ⟨p', rfl⟩ := pathsFrom_head t p h
      simp
    · exact ih h

theorem getLast?_cons_of_ne_nil (t : TreeNode) {p : List TreeNode} (h : p ≠ []) :
    (t :: p).getLast? = p.getLast? := by
  cases p with
  | nil => exact absurd rfl h
  | cons a as => simp [List.getLast?_cons_cons]

mutual
/-- An id is reached from a node exactly when it ends a path from the node that passes the
edge test of `dfs`. -/
theorem mem_reach_iff : ∀ (t : TreeNode) (lim : Int) (x : Int),
    x ∈ reach t lim ↔
      ∃ p ∈ pathsFrom t, withinBudget lim p ∧ p.getLast?.map TreeNode.id = some x
  | .mk i c l cs, lim, x => by
    simp only [reach, List.mem_cons, pathsFrom]
    rw [mem_reachChildren_iff l lim cs x]
    constructor
    · rintro (rfl | ⟨p, hp, hok, hlast⟩)
      · exact ⟨[.mk x c l cs], Or.inl rfl, trivial, rfl⟩
      · refine ⟨.mk i c l cs :: p, Or.inr (List.mem_map_of_mem _ hp), hok, ?_⟩
        rw [getLast?_cons_of_ne_nil _ (pathsFromChildren_ne_nil cs p hp)]
        exact hlast
    · rintro ⟨p, hp, hok, hlast⟩
      rcases hp with rfl | hp
      · left
        simpa [TreeNode.id] using hlast.symm
      · obtain ⟨q, hq, rfl⟩ := List.mem_map.1 hp
        right
        refine ⟨q, hq, hok, ?_⟩
        rw [getLast?_cons_of_ne_nil _ (pathsFromChildren_ne_nil cs q hq)] at hlast
        exact hlast
/-- The same for the descents through the children of a node of latency `l`. -/
theorem mem_reachChildren_iff : ∀ (l lim : Int) (cs : List TreeNode) (x : Int),
    x ∈ reachChildren l lim cs ↔
      ∃ p ∈ pathsFromChildren cs, edgesOk l lim p ∧ p.getLast?.map TreeNode.id = some x
  | _, _, [], x => by simp [reachChildren, pathsFromChildren]
  | l, lim, child :: rest, x => by
    simp only [reachChildren, pathsFromChildren, List.mem_append]
    rw [mem_reachChildren_iff l lim rest x]
    constructor
    · rintro (h | ⟨p, hp, hok, hlast⟩)
      · by_cases hlat : l + child.latency ≤ lim
        · rw [if_pos hlat, mem_reach_iff child (lim - l) x] at h
          obtain ⟨p, hp, hok, hlast⟩ := h
          obtain ⟨p', rfl⟩ := pathsFrom_head child p hp
          exact ⟨child :: p', Or.inl hp, ⟨hlat, hok⟩, hlast⟩
        · rw [if_neg hlat] at h
          cases h
      · exact ⟨p, Or.inr hp, hok, hlast⟩
    · rintro ⟨p, hp | hp, hok, hlast⟩
      · left
        obtain ⟨p', rfl⟩ := pathsFrom_head child p hp
        obtain ⟨hlat, hok'⟩ := hok
        rw [if_pos hlat, mem_reach_iff child (lim - l) x]
        exact ⟨child :: p', hp, hok', hlast⟩
      · exact Or.inr ⟨p, hp, hok, hlast⟩
end

mutual
/-- The end nodes of the paths from a node are the nodes of its subtree, in pre-order. -/
theorem pathsFrom_last : ∀ (t : TreeNode),
    (pathsFrom t).map (fun p => p.getLast?) = t.nodes.map some
  | .mk i c l cs => by
    simp only [pathsFrom, TreeNode.nodes, List.map_cons, List.map_map, List.getLast?_singleton]
    congr 1
    rw [← pathsFromChildren_last cs]
    apply List.map_congr_left
    intro p hp
    exact getLast?_cons_of_ne_nil _ (pathsFromChildren_ne_nil cs p hp)
/-- The same for the paths from the nodes of a list. -/
theorem pathsFromChildren_last : ∀ (cs : List TreeNode),
    (pathsFromChildren cs).map (fun p => p.getLast?) = (TreeNode.nodesList cs).map some
  | [] => by simp [pathsFromChildren, TreeNode.nodesList]
  | t :: ts => by
    simp only [pathsFromChildren, TreeNode.nodesList, List.map_append]
    rw [pathsFrom_last t, pathsFromChildren_last ts]
end

/-- With distinct ids, a path from a node is determined by the id of its end node. -/
theorem path_eq_of_last_id {t : TreeNode} (hid : t.ids.Nodup) {p q : List TreeNode}
    (hp : p ∈ pathsFrom t) (hq : q ∈ pathsFrom t)
    (h : p.getLast?.map TreeNode.id = q.getLast?.map TreeNode.id) : p = q := by
  have hmap : (pathsFrom t).map (fun p => p.getLast?.map TreeNode.id) = t.ids.map some := by
    have := congrArg (List.map (Option.map TreeNode.id)) (pathsFrom_last t)
    simpa [TreeNode.ids, List.map_map, Function.comp_def] using this
  have hnd : ((pathsFrom t).map (fun p => p.getLast?.map TreeNode.id)).Nodup := by
    rw [hmap]
    exact hid.map (Option.some_injective _)
  exact List.inj_on_of_nodup_map hnd hp hq h

mutual
/-- Every node on a path from a node is a node of its subtree. -/
theorem mem_nodes_of_mem_path : ∀ (t : TreeNode) (p : List TreeNode), p ∈ pathsFrom t →
    ∀ n ∈ p, n ∈ t.nodes
  | .mk i c l cs, p, hp, n, hn => by
    simp only [pathsFrom, List.mem_cons, List.mem_map] at hp
    simp only [TreeNode.nodes, List.mem_cons]
    rcases hp with rfl | ⟨q, hq, rfl⟩
    · left
      simpa using hn
    · rcases List.mem_cons.1 hn with rfl | hn
      · exact Or.inl rfl
      · exact Or.inr (mem_nodesList_of_mem_path cs q hq n hn)
/-- The same for the paths from the nodes of a list. -/
theorem mem_nodesList_of_mem_path : ∀ (cs : List TreeNode) (p : List TreeNode),
    p ∈ pathsFromChildren cs → ∀ n ∈ p, n ∈ TreeNode.nodesList cs
  | [], p, hp, _, _ => by simp [pathsFromChildren] at hp
  | t :: ts, p, hp, n, hn => by
    simp only [pathsFromChildren, List.mem_append] at hp
    simp only [TreeNode.nodesList, List.mem_append]
    rcases hp with hp | hp
    · exact Or.inl (mem_nodes_of_mem_path t p hp n hn)
    · exact Or.inr (mem_nodesList_of_mem_path ts p hp n hn)
end

/-- With non-negative latencies the edge tests along a non-empty path amount to one test
of the sum of the latencies. -/
theorem edgesOk_iff_sum (rest : List TreeNode) (l lim : Int) (hne : rest ≠ [])
    (hlat : ∀ n ∈ rest, 0 ≤ n.latency) :
    edgesOk l lim rest ↔ l + (rest.map TreeNode.latency).sum ≤ lim := by
  induction rest generalizing l lim with
  | nil => exact absurd rfl hne
  | cons c rest ih =>
    by_cases hr : rest = []
    · subst hr
      simp [edgesOk]
    · have hsum : 0 ≤ (rest.map TreeNode.latency).sum := by
        apply List.sum_nonneg
        intro x hx
        obtain ⟨n, hn, rfl⟩ := List.mem_map.1 hx
        exact hlat n (List.mem_cons_of_mem _ hn)
      have ih' := ih c.latency (lim - l) hr (fun n hn => hlat n (List.mem_cons_of_mem _ hn))
      simp only [edgesOk, ih', List.map_cons, List.sum_cons]
      constructor
      · rintro ⟨-, h⟩; omega
      · intro h; constructor <;> omega

end Bicriteria

/-- C13 (Strategy B membership). For a tree with pairwise distinct ids and non-negative
latencies, for all limits and for child number `k` of the root, `c`: the partition at
position `k` of the result of `bicriteriaApproximation` contains the id of `c`; and for
every path from `c` down to a proper descendant `d`, it contains the id of `d` if and only
if the latencies of the nodes of the path, `c` and `d` included, sum to at most
`latencyLimit`, which is the case if and only if every edge of the path passes the test
of `dfs` (`withinBudget`). -/
theorem bicriteriaApproximation_membership (root : Bicriteria.TreeNode)
    (latencyLimit costLimit : Int) (overallQoS : ℚ) (k : Nat) (c : Bicriteria.TreeNode)
    (hid : root.ids.Nodup) (hlat : ∀ n ∈ root.nodes, 0 ≤ n.latency)
    (hk : root.children[k]? = some c) :
    ∃ part,
      (Bicriteria.bicriteriaApproximation root latencyLimit costLimit [] overallQoS).1[k]? =
        some part ∧
      c.id ∈ part ∧
      ∀ path ∈ Bicriteria.pathsFrom c, ∀ d, path.getLast? = some d → 2 ≤ path.length →
        ((d.id ∈ part ↔ (path.map Bicriteria.TreeNode.latency).sum ≤ latencyLimit) ∧
          (d.id ∈ part ↔ Bicriteria.withinBudget latencyLimit path)) := by
  have hcmem : c ∈ root.children := List.getElem?_mem hk
  have hsub : c.nodes.Sublist (Bicriteria.TreeNode.nodesList root.children) :=
    Bicriteria.nodes_sublist_nodesList hcmem
  have hcid : c.ids.Nodup := by
    rw [Bicriteria.TreeNode.ids_eq, List.nodup_cons] at hid
    exact (hsub.map Bicriteria.TreeNode.id).nodup hid.2
  have hclat : ∀ n ∈ c.nodes, 0 ≤ n.latency := by
    intro n hn
    apply hlat
    rw [Bicriteria.TreeNode.nodes_unfold]
    exact List.mem_cons_of_mem _ (hsub.subset hn)
  refine ⟨Bicriteria.partitionOf c latencyLimit, ?_, ?_, ?_⟩
  · rw [Bicriteria.bicriteriaApproximation_eq]
    simp [hk]
  · exact (Bicriteria.mem_insertAll _ _ _).2 (Or.inr (Bicriteria.reach_head c latencyLimit))
  · intro path hpath d hd hlen
    have hmem : d.id ∈ Bicriteria.partitionOf c latencyLimit ↔
        Bicriteria.withinBudget latencyLimit path := by
      unfold Bicriteria.partitionOf
      rw [Bicriteria.mem_insertAll, Bicriteria.mem_reach_iff]
      constructor
      · rintro (h | ⟨p, hp, hok, hlast⟩)
        · cases h
        · have : p = path := Bicriteria.path_eq_of_last_id hcid hp hpath (by rw [hlast, hd]; rfl)
          exact this ▸ hok
      · intro hok
        exact Or.inr ⟨path, hpath, hok, by rw [hd]; rfl⟩
    refine ⟨?_, hmem⟩
    rw [hmem]
    obtain ⟨rest, rfl⟩ := Bicriteria.pathsFrom_head c path hpath
    have hne : rest ≠ [] := by
      intro h
      subst h
      simp at hlen
    have hrest : ∀ n ∈ rest, 0 ≤ n.latency := fun n hn =>
      hclat n (Bicriteria.mem_nodes_of_mem_path c _ hpath n (List.mem_cons_of_mem _ hn))
    simp only [Bicriteria.withinBudget, List.map_cons, List.sum_cons]
    exact Bicriteria.edgesOk_iff_sum rest c.latency latencyLimit hne hrest

/-- Witness of C13: the first child of the sample tree under `latencyLimit = 20`. -/
theorem bicriteriaApproximation_membership_witness :
    Bicriteria.sampleTree.ids.Nodup ∧
    (∀ n ∈ Bicriteria.sampleTree.nodes, 0 ≤ n.latency) ∧
    Bicriteria.sampleTree.children[0]? = some Bicriteria.sampleChild ∧
    ∃ part,
      (Bicriteria.bicriteriaApproximation Bicriteria.sampleTree 20 100 [] 0).1[0]? = some part ∧
      Bicriteria.sampleChild.id ∈ part ∧
      ∀ path ∈ Bicriteria.pathsFrom Bicriteria.sampleChild, ∀ d,
        path.getLast? = some d → 2 ≤ path.length →
        ((d.id ∈ part ↔ (path.map Bicriteria.TreeNode.latency).sum ≤ 20) ∧
          (d.id ∈ part ↔ Bicriteria.withinBudget 20 path)) :=
  ⟨by decide, by decide, rfl,
    bicriteriaApproximation_membership Bicriteria.sampleTree 20 100 0 0 Bicriteria.sampleChild
      (by decide) (by decide) rfl⟩

namespace Bicriteria

theorem partitionSums_eq (node : TreeNode) (ids : List Int) (totalCost totalLatency : Int) :
    partitionSums node ids (totalCost, totalLatency) =
      (totalCost + ids.length * node.cost, totalLatency + ids.length * node.latency) := by
  induction ids generalizing totalCost totalLatency with
  | nil => simp [partitionSums]
  | cons x xs ih =>
    simp only [partitionSums, ih, List.length_cons, Nat.cast_add, Nat.cast_one]
    congr 1 <;> ring

/-- What the code feeds to the scorer: the number of members of the partition times the
cost, and times the latency, of the child of the root that the partition grew from. -/
theorem addedScore_eq (c : TreeNode) (latencyLimit costLimit : Int) :
    addedScore c latencyLimit costLimit =
      calculatePartitionQoS ((partitionOf c latencyLimit).length * c.cost)
        ((partitionOf c latencyLimit).length * c.latency) costLimit latencyLimit := by
  have h := partitionSums_eq c (partitionOf c latencyLimit) 0 0
  simp only [addedScore, h, zero_add]

end Bicriteria

/-- C14, the behaviour of the code at a failing input. On the chain `0 -> 1 -> 2` with costs
0, 10, 30 and latencies 1, 5, 3, `latencyLimit = 20` and `costLimit = 100`,
`bicriteriaApproximation` builds the single partition `{1, 2}` and adds the score of the
totals `2 * 10` and `2 * 5`, which is 65; the score of the sums over the members,
`10 + 30` and `5 + 3`, is 60. -/
theorem bicriteriaApproximation_scoring_input :
    Bicriteria.bicriteriaApproximation Bicriteria.scoringTree 20 100 [] 0 = ([[1, 2]], 65) ∧
    Bicriteria.calculatePartitionQoS (2 * 10) (2 * 5) 100 20 = 65 ∧
    Bicriteria.calculatePartitionQoS (10 + 30) (5 + 3) 100 20 = 60 := by
  refine ⟨?_, ?_, ?_⟩
  · rw [Bicriteria.bicriteriaApproximation_eq]
    simp only [Bicriteria.addedScore_eq]
    have hp : Bicriteria.partitionOf (.mk 1 10 5 [.mk 2 30 3 []]) 20 = [1, 2] := by decide
    simp only [Bicriteria.scoringTree, Bicriteria.TreeNode.children, List.map_cons, List.map_nil,
      hp, Bicriteria.TreeNode.cost, Bicriteria.TreeNode.latency]
    norm_num [Bicriteria.calculatePartitionQoS]
  · norm_num [Bicriteria.calculatePartitionQoS]
  · norm_num [Bicriteria.calculatePartitionQoS]

/-! ## Strategy A: the linkage list -/

namespace SASAP

theorem skeleton_id (t : TreeNode) : t.skeleton.id = t.id := by
  cases t; simp [TreeNode.skeleton, IdTree.id, TreeNode.id]

theorem skeleton_children (t : TreeNode) : t.skeleton.children = skeletonList t.children := by
  cases t; simp [TreeNode.skeleton, IdTree.children, TreeNode.children]

theorem skeletonList_append (xs ys : List TreeNode) :
    skeletonList (xs ++ ys) = skeletonList xs ++ skeletonList ys := by
  induction xs with
  | nil => simp [skeletonList]
  | cons x xs ih => simp [skeletonList, ih]

theorem skeletonList_map_edge (i : Int) (cs : List TreeNode) :
    (skeletonList cs).map (fun c => ({ fromNode := i, toNode := c.id } : Linkage)) =
      cs.map (fun c => { fromNode := i, toNode := c.id }) := by
  induction cs with
  | nil => simp [skeletonList]
  | cons c cs ih => simp [skeletonList, skeleton_id, ih]

mutual
theorem skeleton_size : ∀ (t : TreeNode), t.skeleton.size = t.nodes.length
  | .mk i c l s cs => by
    simp only [TreeNode.skeleton, IdTree.size, TreeNode.nodes, List.length_cons,
      skeletonList_size cs]
    omega
theorem skeletonList_size : ∀ (cs : List TreeNode),
    IdTree.sizeList (skeletonList cs) = (TreeNode.nodesList cs).length
  | [] => by simp [skeletonList, IdTree.sizeList, TreeNode.nodesList]
  | t :: ts => by
    simp only [skeletonList, IdTree.sizeList, TreeNode.nodesList, List.length_append,
      skeleton_size t, skeletonList_size ts]
end

theorem IdTree.sizeList_append (xs ys : List IdTree) :
    IdTree.sizeList (xs ++ ys) = IdTree.sizeList xs + IdTree.sizeList ys := by
  induction xs with
  | nil => simp [IdTree.sizeList]
  | cons x xs ih => simp [IdTree.sizeList, ih, Nat.add_assoc]

theorem IdTree.size_eq (t : IdTree) : t.size = 1 + IdTree.sizeList t.children := by
  cases t; simp [IdTree.size, IdTree.children]

/-- The traversal is complete once its fuel covers the nodes reachable from the queue:
more fuel lists no further edge. -/
theorem bfsEdges_stable (fuel j : Nat) (q : List IdTree) (h : IdTree.sizeList q ≤ fuel) :
    bfsEdges (fuel + j) q = bfsEdges fuel q := by
  induction fuel generalizing q with
  | zero =>
    cases q with
    | nil => cases j <;> simp [bfsEdges]
    | cons t rest =>
      simp only [IdTree.sizeList, IdTree.size_eq t] at h
      omega
  | succ fuel ih =>
    rw [Nat.add_right_comm]
    cases q with
    | nil => simp [bfsEdges]
    | cons t rest =>
      simp only [bfsEdges]
      rw [ih]
      simp only [IdTree.sizeList, IdTree.size_eq t] at h
      rw [IdTree.sizeList_append]
      omega

/-- On a state that satisfies `DistinctInv`, the loop appends to `linkages` the edges that
a breadth-first traversal from its queue lists. -/
theorem whileLoop_linkages (latencyLimit memoryLimit : Int) (fuel : Nat) (s : State)
    (hinv : DistinctInv s) :
    (whileLoop latencyLimit memoryLimit fuel s).linkages =
      s.linkages ++ bfsEdges fuel (skeletonList s.q) := by
  induction fuel generalizing s with
  | zero => simp [whileLoop, bfsEdges]
  | succ fuel ih =>
    cases hq : s.q with
    | nil => simp [whileLoop, hq, skeletonList, bfsEdges]
    | cons node rest =>
      simp only [whileLoop, hq]
      rw [ih _ (loopBody_distinctInv latencyLimit memoryLimit s node rest hinv hq).1]
      rw [loopBody_linkages, loopBody_q, filter_children_eq hinv hq]
      simp only [skeletonList, bfsEdges, skeleton_children, skeleton_id, skeletonList_append,
        skeletonList_map_edge, List.append_assoc]

/-- C19 (linkage content). For a tree with pairwise distinct ids, the linkage list that
`improvedTreePartitioning` produces from an empty vector is the list of the
`(parent id, child id)` pairs of the edges of the tree, in breadth-first order of the
parent and then in child order. It is the same list for all limits, and for every other
tree of the same shape (same ids and children, any cost, latency and secure attributes). -/
theorem improvedTreePartitioning_linkages (root : TreeNode) (latencyLimit memoryLimit : Int)
    (hid : root.ids.Nodup) :
    (improvedTreePartitioning root latencyLimit memoryLimit []).2 = treeEdges root.skeleton ∧
    ∀ (root' : TreeNode) (latencyLimit' memoryLimit' : Int),
      root'.skeleton = root.skeleton → root'.ids.Nodup →
      (improvedTreePartitioning root' latencyLimit' memoryLimit' []).2 =
        (improvedTreePartitioning root latencyLimit memoryLimit []).2 := by
  have key : ∀ (r : TreeNode) (lat mem : Int), r.ids.Nodup →
      (improvedTreePartitioning r lat mem []).2 = treeEdges r.skeleton := by
    intro r lat mem hr
    have h := whileLoop_linkages lat mem r.size (initState r []) (initState_distinctInv r [] hr)
    simp only [improvedTreePartitioning, finalState, treeEdges, skeleton_size]
    rw [h]
    simp [initState, skeletonList, TreeNode.size]
  refine ⟨key root latencyLimit memoryLimit hid, ?_⟩
  intro root' lat' mem' hshape hid'
  rw [key root' lat' mem' hid', key root latencyLimit memoryLimit hid, hshape]

/-- Witness of C19: the sample tree, and the tree of the same shape with other attributes. -/
theorem improvedTreePartitioning_linkages_witness :
    sampleTree.ids.Nodup ∧
    ((improvedTreePartitioning sampleTree 15 25 []).2 = treeEdges sampleTree.skeleton ∧
    ∀ (root' : TreeNode) (latencyLimit' memoryLimit' : Int),
      root'.skeleton = sampleTree.skeleton → root'.ids.Nodup →
      (improvedTreePartitioning root' latencyLimit' memoryLimit' []).2 =
        (improvedTreePartitioning sampleTree 15 25 []).2) :=
  ⟨by decide, improvedTreePartitioning_linkages sampleTree 15 25 (by decide)⟩

end SASAP

/-! ## Further properties of the scorers and of the penalty -/

/-- C24 (score gap of the branching scorer). For positive limits and non-negative totals,
both copies of `calculate_partition_qos_satisfaction` return exactly 100 when both totals
are within their limits and a value strictly below 50 when at least one total exceeds its
limit; so each returns 100 or a value below 50, and never a value in `[50, 100)`. -/
theorem branching_score_gap (totalCost totalLatency memoryLimit latencyLimit : Int)
    (nodes : List Int) (hm : 0 < memoryLimit) (hl : 0 < latencyLimit)
    (htc : 0 ≤ totalCost) (htl : 0 ≤ totalLatency) :
    ((totalCost ≤ memoryLimit ∧ totalLatency ≤ latencyLimit) →
      Greedy.calculate_partition_qos_satisfaction
        { totalCost := totalCost, totalLatency := totalLatency, nodes := nodes }
        latencyLimit memoryLimit = 100 ∧
      LeftRight.calculate_partition_qos_satisfaction totalCost totalLatency memoryLimit
        latencyLimit = 100) ∧
    ((memoryLimit < totalCost ∨ latencyLimit < totalLatency) →
      Greedy.calculate_partition_qos_satisfaction
        { totalCost := totalCost, totalLatency := totalLatency, nodes := nodes }
        latencyLimit memoryLimit < 50 ∧
      LeftRight.calculate_partition_qos_satisfaction totalCost totalLatency memoryLimit
        latencyLimit < 50) ∧
    (Greedy.calculate_partition_qos_satisfaction
        { totalCost := totalCost, totalLatency := totalLatency, nodes := nodes }
        latencyLimit memoryLimit = 100 ∨
      Greedy.calculate_partition_qos_satisfaction
        { totalCost := totalCost, totalLatency := totalLatency, nodes := nodes }
        latencyLimit memoryLimit < 50) ∧
    (LeftRight.calculate_partition_qos_satisfaction totalCost totalLatency memoryLimit
        latencyLimit = 100 ∨
      LeftRight.calculate_partition_qos_satisfaction totalCost totalLatency memoryLimit
        latencyLimit < 50) := by
  have hin : (totalCost ≤ memoryLimit ∧ totalLatency ≤ latencyLimit) →
      Greedy.calculate_partition_qos_satisfaction
        { totalCost := totalCost, totalLatency := totalLatency, nodes := nodes }
        latencyLimit memoryLimit = 100 ∧
      LeftRight.calculate_partition_qos_satisfaction totalCost totalLatency memoryLimit
        latencyLimit = 100 := by
    intro h
    simp [Greedy.calculate_partition_qos_satisfaction,
      LeftRight.calculate_partition_qos_satisfaction, h]
  have hout : (memoryLimit < totalCost ∨ latencyLimit < totalLatency) →
      Greedy.calculate_partition_qos_satisfaction
        { totalCost := totalCost, totalLatency := totalLatency, nodes := nodes }
        latencyLimit memoryLimit < 50 ∧
      LeftRight.calculate_partition_qos_satisfaction totalCost totalLatency memoryLimit
        latencyLimit < 50 := by
    intro h
    have hnot : ¬ (totalCost ≤ memoryLimit ∧ totalLatency ≤ latencyLimit) := by omega
    have hc100 := satisfaction_le_hundred memoryLimit totalCost hm htc
    have hl100 := satisfaction_le_hundred latencyLimit totalLatency hl htl
    have hsum : (((memoryLimit - totalCost : Int) : ℚ) * 100 / (memoryLimit : ℚ) +
        ((latencyLimit - totalLatency : Int) : ℚ) * 100 / (latencyLimit : ℚ)) / 2 < 50 := by
      rcases h with h | h
      · have := satisfaction_neg memoryLimit totalCost hm h
        linarith
      · have := satisfaction_neg latencyLimit totalLatency hl h
        linarith
    constructor
    · simp only [Greedy.calculate_partition_qos_satisfaction, if_neg hnot]
      exact max_lt (by norm_num) hsum
    · simp only [LeftRight.calculate_partition_qos_satisfaction, if_neg hnot]
      exact max_lt (by norm_num) hsum
  refine ⟨hin, hout, ?_, ?_⟩
  · by_cases h : totalCost ≤ memoryLimit ∧ totalLatency ≤ latencyLimit
    · exact Or.inl (hin h).1
    · exact Or.inr (hout (by omega)).1
  · by_cases h : totalCost ≤ memoryLimit ∧ totalLatency ≤ latencyLimit
    · exact Or.inl (hin h).2
    · exact Or.inr (hout (by omega)).2

/-- Witness of C24: totals 30 and 5 against limits 25 and 15 (the cost exceeds its limit). -/
theorem branching_score_gap_witness :
    (((30 : Int) ≤ 25 ∧ (5 : Int) ≤ 15) →
      Greedy.calculate_partition_qos_satisfaction
        { totalCost := 30, totalLatency := 5, nodes := [2] } 15 25 = 100 ∧
      LeftRight.calculate_partition_qos_satisfaction 30 5 25 15 = 100) ∧
    (((25 : Int) < 30 ∨ (15 : Int) < 5) →
      Greedy.calculate_partition_qos_satisfaction
        { totalCost := 30, totalLatency := 5, nodes := [2] } 15 25 < 50 ∧
      LeftRight.calculate_partition_qos_satisfaction 30 5 25 15 < 50) ∧
    (Greedy.calculate_partition_qos_satisfaction
        { totalCost := 30, totalLatency := 5, nodes := [2] } 15 25 = 100 ∨
      Greedy.calculate_partition_qos_satisfaction
        { totalCost := 30, totalLatency := 5, nodes := [2] } 15 25 < 50) ∧
    (LeftRight.calculate_partition_qos_satisfaction 30 5 25 15 = 100 ∨
      LeftRight.calculate_partition_qos_satisfaction 30 5 25 15 < 50) :=
  branching_score_gap 30 5 25 15 [2] (by decide) (by decide) (by decide) (by decide)

namespace Binary64

theorem floor_le_roundHalfEven (y : ℚ) : ⌊y⌋ ≤ roundHalfEven y := by
  unfold roundHalfEven
  simp only
  split_ifs <;> omega

theorem roundHalfEven_le_floor_succ (y : ℚ) : roundHalfEven y ≤ ⌊y⌋ + 1 := by
  unfold roundHalfEven
  simp only
  split_ifs <;> omega

/-- Rounding to the nearest integer moves a number by at most one half. -/
theorem abs_roundHalfEven_sub_le (y : ℚ) : |(roundHalfEven y : ℚ) - y| ≤ 1 / 2 := by
  have h1 : (⌊y⌋ : ℚ) ≤ y := Int.floor_le y
  have h2 : y < (⌊y⌋ : ℚ) + 1 := Int.lt_floor_add_one y
  unfold roundHalfEven
  simp only
  rw [abs_le]
  split_ifs with ha hb hc
  · constructor <;> linarith
  · push_cast; constructor <;> linarith
  · have : y - ⌊y⌋ = 1 / 2 := le_antisymm (not_lt.1 hb) (not_lt.1 ha)
    constructor <;> linarith
  · have : y - ⌊y⌋ = 1 / 2 := le_antisymm (not_lt.1 hb) (not_lt.1 ha)
    push_cast; constructor <;> linarith

/-- Rounding does not go below an integer that the number is not below. -/
theorem le_roundHalfEven {n : ℤ} {y : ℚ} (h : (n : ℚ) ≤ y) : n ≤ roundHalfEven y :=
  (Int.le_floor.2 h).trans (floor_le_roundHalfEven y)

/-- Rounding does not go above an integer that the number exceeds by less than one half. -/
theorem roundHalfEven_le {n : ℤ} {y : ℚ} (h : y < (n : ℚ) + 1 / 2) : roundHalfEven y ≤ n := by
  have hf : ⌊y⌋ ≤ n := by
    have : ⌊y⌋ < n + 1 := by
      rw [Int.floor_lt]; push_cast; linarith
    omega
  rcases hf.lt_or_eq with hlt | heq
  · have := roundHalfEven_le_floor_succ y
    omega
  · have hlt : y - (⌊y⌋ : ℚ) < 1 / 2 := by rw [heq]; linarith
    unfold roundHalfEven
    simp only [hlt, if_true]
    omega

/-- An integer within less than one half of a number is what the number rounds to. -/
theorem roundHalfEven_eq {m : ℤ} {y : ℚ} (h : |y - (m : ℚ)| < 1 / 2) : roundHalfEven y = m := by
  rw [abs_lt] at h
  apply le_antisymm
  · exact roundHalfEven_le (by linarith)
  · have h3 := abs_roundHalfEven_sub_le y
    rw [abs_le] at h3
    have h4 : ((m : ℚ) - 1) < (roundHalfEven y : ℚ) := by linarith
    have h5 : m - 1 < roundHalfEven y := by exact_mod_cast h4
    omega

theorem log_of_binade {x : ℚ} {e : ℤ} (hx : 0 < x) (h1 : (2 : ℚ) ^ e ≤ x)
    (h2 : x < (2 : ℚ) ^ (e + 1)) : Int.log 2 x = e := by
  have ha : e ≤ Int.log 2 x :=
    (Int.zpow_le_iff_le_log (by norm_num) hx).1 (by exact_mod_cast h1)
  have hb : Int.log 2 x < e + 1 :=
    (Int.lt_zpow_iff_log_lt (by norm_num) hx).1 (by exact_mod_cast h2)
  omega

/-- The rounding of a positive number with `2 ^ e <= x < 2 ^ (e + 1)`. -/
theorem round_of_binade {x : ℚ} {e : ℤ} (h1 : (2 : ℚ) ^ e ≤ x) (h2 : x < (2 : ℚ) ^ (e + 1)) :
    round x = (roundHalfEven (x / 2 ^ (e - 52)) : ℚ) * 2 ^ (e - 52) := by
  have hx : 0 < x := lt_of_lt_of_le (by positivity) h1
  unfold round
  simp only [hx.ne', if_false, abs_of_pos hx, log_of_binade hx h1 h2]

/-- The `double` `0.1` is `3602879701896397 / 2 ^ 55`, a little more than one tenth. -/
theorem tenth_eq : tenth = 3602879701896397 / 2 ^ 55 := by
  have h := round_of_binade (x := 1 / 10) (e := -4) (by norm_num) (by norm_num)
  have hm : roundHalfEven ((1 / 10 : ℚ) / 2 ^ ((-4 : ℤ) - 52)) = 7205759403792794 :=
    roundHalfEven_eq (by norm_num [abs_lt])
  rw [tenth, h, hm]
  norm_num

/-- Rounding within a binade: the result stays in the closed binade and is within half a
unit in the last place of the number. -/
theorem round_binade_bounds {x : ℚ} {e : ℤ} (h1 : (2 : ℚ) ^ e ≤ x)
    (h2 : x < (2 : ℚ) ^ (e + 1)) :
    (2 : ℚ) ^ e ≤ round x ∧ round x ≤ (2 : ℚ) ^ (e + 1) ∧
      |round x - x| ≤ (2 : ℚ) ^ (e - 52) / 2 := by
  have hu : (0 : ℚ) < 2 ^ (e - 52) := by positivity
  have he : (2 : ℚ) ^ e = 2 ^ (52 : ℕ) * 2 ^ (e - 52) := by
    rw [← zpow_natCast, ← zpow_add₀ (by norm_num : (2 : ℚ) ≠ 0)]
    congr 1; push_cast; ring
  have he1 : (2 : ℚ) ^ (e + 1) = 2 ^ (53 : ℕ) * 2 ^ (e - 52) := by
    rw [← zpow_natCast, ← zpow_add₀ (by norm_num : (2 : ℚ) ≠ 0)]
    congr 1; push_cast; ring
  have hxy : x / 2 ^ (e - 52) * 2 ^ (e - 52) = x := div_mul_cancel₀ x hu.ne'
  have hc52 : ((2 ^ 52 : ℤ) : ℚ) = (2 : ℚ) ^ (52 : ℕ) := by norm_num
  have hc53 : ((2 ^ 53 : ℤ) : ℚ) = (2 : ℚ) ^ (53 : ℕ) := by norm_num
  have hlo : ((2 ^ 52 : ℤ) : ℚ) ≤ x / 2 ^ (e - 52) := by
    rw [hc52, le_div_iff₀ hu, ← he]
    exact h1
  have hhi : x / 2 ^ (e - 52) < ((2 ^ 53 : ℤ) : ℚ) + 1 / 2 := by
    have : x / 2 ^ (e - 52) < ((2 ^ 53 : ℤ) : ℚ) := by
      rw [hc53, div_lt_iff₀ hu, ← he1]
      exact h2
    linarith
  have hr1 : ((2 ^ 52 : ℤ) : ℚ) ≤ (roundHalfEven (x / 2 ^ (e - 52)) : ℚ) := by
    exact_mod_cast le_roundHalfEven hlo
  have hr2 : (roundHalfEven (x / 2 ^ (e - 52)) : ℚ) ≤ ((2 ^ 53 : ℤ) : ℚ) := by
    exact_mod_cast roundHalfEven_le hhi
  have hr3 := abs_roundHalfEven_sub_le (x / 2 ^ (e - 52))
  rw [round_of_binade h1 h2]
  refine ⟨?_, ?_, ?_⟩
  · rw [he]
    rw [hc52] at hr1
    exact mul_le_mul_of_nonneg_right hr1 hu.le
  · rw [he1]
    rw [hc53] at hr2
    exact mul_le_mul_of_nonneg_right hr2 hu.le
  · have hsub : (roundHalfEven (x / 2 ^ (e - 52)) : ℚ) * 2 ^ (e - 52) - x =
        ((roundHalfEven (x / 2 ^ (e - 52)) : ℚ) - x / 2 ^ (e - 52)) * 2 ^ (e - 52) := by
      rw [sub_mul, hxy]
    rw [hsub, abs_mul, abs_of_pos hu]
    have := mul_le_mul_of_nonneg_right hr3 hu.le
    linarith

/-- A product between 1 and `100 * 0.1` rounds to a `double` between 1 and 10 that is
within `2 ^ (-50)` of it. -/
theorem round_range {x : ℚ} (h1 : 1 ≤ x) (h2 : x ≤ 10 + 5 / 2 ^ 53) :
    1 ≤ round x ∧ round x ≤ 10 ∧ |round x - x| ≤ 1 / 2 ^ 50 := by
  by_cases hx2 : x < 2
  · obtain ⟨ha, hb, hc⟩ := round_binade_bounds (x := x) (e := 0) (by norm_num; exact h1)
      (by norm_num; exact hx2)
    norm_num at ha hb hc
    refine ⟨ha, by linarith, by linarith⟩
  by_cases hx4 : x < 4
  · obtain ⟨ha, hb, hc⟩ := round_binade_bounds (x := x) (e := 1) (by norm_num; linarith)
      (by norm_num; exact hx4)
    norm_num at ha hb hc
    refine ⟨by linarith, by linarith, by linarith⟩
  by_cases hx8 : x < 8
  · obtain ⟨ha, hb, hc⟩ := round_binade_bounds (x := x) (e := 2) (by norm_num; linarith)
      (by norm_num; exact hx8)
    norm_num at ha hb hc
    refine ⟨by linarith, by linarith, by linarith⟩
  · have h8 : (2 : ℚ) ^ (3 : ℤ) ≤ x := by norm_num; linarith
    have h16 : x < (2 : ℚ) ^ ((3 : ℤ) + 1) := by
      norm_num
      have : (5 : ℚ) / 2 ^ 53 < 1 := by norm_num
      linarith
    obtain ⟨ha, -, hc⟩ := round_binade_bounds h8 h16
    norm_num at ha hc
    refine ⟨by linarith, ?_, by linarith⟩
    rw [round_of_binade h8 h16]
    have hle : roundHalfEven (x / 2 ^ ((3 : ℤ) - 52)) ≤ 5629499534213120 := by
      apply roundHalfEven_le
      norm_num
      linarith
    have hq : (roundHalfEven (x / 2 ^ ((3 : ℤ) - 52)) : ℚ) ≤ 5629499534213120 := by
      exact_mod_cast hle
    have hu : (2 : ℚ) ^ ((3 : ℤ) - 52) = 1 / 562949953421312 := by norm_num
    rw [hu] at hq ⊢
    linarith

end Binary64

/-- Counterexample to C25 as stated: for `rand() = 7` the sampled latency is 17 and
`calculate_latency_factor` (both copies) returns `7656119366529844 / 2 ^ 52`, the `double`
printed as 1.7000000000000002, which is not one tenth of 17. -/
theorem latency_factor_not_exact :
    Greedy.get_random_latency 7 = 17 ∧
    Greedy.calculate_latency_factor 7 = 7656119366529844 / 2 ^ 52 ∧
    LeftRight.calculate_latency_factor 7 = 7656119366529844 / 2 ^ 52 ∧
    Greedy.calculate_latency_factor 7 ≠ Greedy.get_random_latency 7 / 10 ∧
    LeftRight.calculate_latency_factor 7 ≠ Greedy.get_random_latency 7 / 10 := by
  have hlat : Greedy.get_random_latency 7 = 17 := by norm_num [Greedy.get_random_latency]
  have hmul : Binary64.mul 17 Binary64.tenth = 7656119366529844 / 2 ^ 52 := by
    have h := Binary64.round_of_binade (x := 17 * (3602879701896397 / 2 ^ 55)) (e := 0)
      (by norm_num) (by norm_num)
    have hm : Binary64.roundHalfEven
        ((17 * (3602879701896397 / 2 ^ 55) : ℚ) / 2 ^ ((0 : ℤ) - 52)) = 7656119366529844 :=
      Binary64.roundHalfEven_eq (by norm_num [abs_lt])
    rw [Binary64.mul, Binary64.tenth_eq, h, hm]
    norm_num
  have hg : Greedy.calculate_latency_factor 7 = 7656119366529844 / 2 ^ 52 := by
    simp only [Greedy.calculate_latency_factor, hlat, hmul]
    norm_num
  have hl : LeftRight.calculate_latency_factor 7 = 7656119366529844 / 2 ^ 52 := by
    have : LeftRight.calculate_latency_factor 7 =
        min (Binary64.mul (Greedy.get_random_latency 7) Binary64.tenth) 25 := rfl
    rw [this, hlat, hmul]
    norm_num
  refine ⟨hlat, hg, hl, ?_, ?_⟩
  · rw [hg, hlat]; norm_num
  · rw [hl, hlat]; norm_num

/-- C25, amended. For every value `r` returned by `rand()`, the sampled latency
`10 + r % 91` lies in `[10, 100]`; `calculate_latency_factor` (both copies) returns the
`double` product `latency * 0.1`, which lies in `[1, 10]` and differs from one tenth of the
latency by less than `2 ^ (-49)`; and that product is below the cap 25, so the cap is never
the smaller argument of the `min`. -/
theorem latency_factor_range (r : Nat) :
    (10 ≤ Greedy.get_random_latency r ∧ Greedy.get_random_latency r ≤ 100) ∧
    Greedy.calculate_latency_factor r =
      Binary64.mul (Greedy.get_random_latency r) Binary64.tenth ∧
    LeftRight.calculate_latency_factor r =
      Binary64.mul (Greedy.get_random_latency r) Binary64.tenth ∧
    (1 ≤ Greedy.calculate_latency_factor r ∧ Greedy.calculate_latency_factor r ≤ 10) ∧
    (1 ≤ LeftRight.calculate_latency_factor r ∧ LeftRight.calculate_latency_factor r ≤ 10) ∧
    |Greedy.calculate_latency_factor r - Greedy.get_random_latency r / 10| < 1 / 2 ^ 49 ∧
    |LeftRight.calculate_latency_factor r - Greedy.get_random_latency r / 10| < 1 / 2 ^ 49 ∧
    Binary64.mul (Greedy.get_random_latency r) Binary64.tenth < 25 := by
  have hmod : r % 91 < 91 := Nat.mod_lt r (by norm_num)
  have h0 : (0 : ℚ) ≤ ((r % 91 : Nat) : ℚ) := Nat.cast_nonneg _
  have h90 : ((r % 91 : Nat) : ℚ) ≤ 90 := by
    have : r % 91 ≤ 90 := by omega
    exact_mod_cast this
  have hlo : 10 ≤ Greedy.get_random_latency r := by
    simp only [Greedy.get_random_latency]; linarith
  have hhi : Greedy.get_random_latency r ≤ 100 := by
    simp only [Greedy.get_random_latency]; linarith
  have hx1 : 1 ≤ Greedy.get_random_latency r * (3602879701896397 / 2 ^ 55) := by
    norm_num
    linarith
  have hx2 : Greedy.get_random_latency r * (3602879701896397 / 2 ^ 55) ≤ 10 + 5 / 2 ^ 53 := by
    norm_num
    linarith
  obtain ⟨hr1, hr2, hr3⟩ := Binary64.round_range hx1 hx2
  have hmul : Binary64.mul (Greedy.get_random_latency r) Binary64.tenth =
      Binary64.round (Greedy.get_random_latency r * (3602879701896397 / 2 ^ 55)) := by
    rw [Binary64.mul, Binary64.tenth_eq]
  have hcap : Binary64.mul (Greedy.get_random_latency r) Binary64.tenth < 25 := by
    rw [hmul]; linarith
  have hg : Greedy.calculate_latency_factor r =
      Binary64.mul (Greedy.get_random_latency r) Binary64.tenth := by
    simp only [Greedy.calculate_latency_factor]
    exact min_eq_left hcap.le
  have hl : LeftRight.calculate_latency_factor r =
      Binary64.mul (Greedy.get_random_latency r) Binary64.tenth := by
    have : LeftRight.calculate_latency_factor r =
        min (Binary64.mul (Greedy.get_random_latency r) Binary64.tenth) 25 := rfl
    rw [this]
    exact min_eq_left hcap.le
  have herr : |Binary64.mul (Greedy.get_random_latency r) Binary64.tenth -
      Greedy.get_random_latency r / 10| < 1 / 2 ^ 49 := by
    rw [hmul]
    rw [abs_le] at hr3
    rw [abs_lt]
    norm_num at hr3 ⊢
    constructor <;> linarith
  refine ⟨⟨hlo, hhi⟩, hg, hl, ?_, ?_, ?_, ?_, hcap⟩
  · rw [hg, hmul]; exact ⟨hr1, hr2⟩
  · rw [hl, hmul]; exact ⟨hr1, hr2⟩
  · rw [hg]; exact herr
  · rw [hl]; exact herr

/-- C21 (Strategy B never assigns the root). For a tree with pairwise distinct ids and for
all limits, the id of the root is a member of no partition produced by
`bicriteriaApproximation`; so some id of the tree is in none of the partitions, and their
union is not the full set of ids. -/
theorem bicriteriaApproximation_root_unassigned (root : Bicriteria.TreeNode)
    (latencyLimit costLimit : Int) (overallQoS : ℚ) (hid : root.ids.Nodup) :
    (∀ part ∈ (Bicriteria.bicriteriaApproximation root latencyLimit costLimit [] overallQoS).1,
      root.id ∉ part) ∧
    ∃ x ∈ root.ids,
      ∀ part ∈ (Bicriteria.bicriteriaApproximation root latencyLimit costLimit [] overallQoS).1,
        x ∉ part := by
  have hmain : ∀ part ∈
      (Bicriteria.bicriteriaApproximation root latencyLimit costLimit [] overallQoS).1,
      root.id ∉ part := by
    intro part hpart hmem
    rw [Bicriteria.bicriteriaApproximation_eq] at hpart
    simp only [List.nil_append, List.mem_map] at hpart
    obtain ⟨c, hc, rfl⟩ := hpart
    have h1 : root.id ∈ c.ids := Bicriteria.partitionOf_subset c latencyLimit _ hmem
    have h2 : root.id ∈ (Bicriteria.TreeNode.nodesList root.children).map Bicriteria.TreeNode.id :=
      ((Bicriteria.nodes_sublist_nodesList hc).map Bicriteria.TreeNode.id).subset h1
    rw [Bicriteria.TreeNode.ids_eq, List.nodup_cons] at hid
    exact hid.1 h2
  refine ⟨hmain, root.id, ?_, hmain⟩
  rw [Bicriteria.TreeNode.ids_eq]
  exact List.mem_cons_self _ _

/-- Witness of C21 on the sample tree with `latencyLimit = 30`. -/
theorem bicriteriaApproximation_root_unassigned_witness :
    Bicriteria.sampleTree.ids.Nodup ∧
    ((∀ part ∈ (Bicriteria.bicriteriaApproximation Bicriteria.sampleTree 30 100 [] 0).1,
      Bicriteria.sampleTree.id ∉ part) ∧
    ∃ x ∈ Bicriteria.sampleTree.ids,
      ∀ part ∈ (Bicriteria.bicriteriaApproximation Bicriteria.sampleTree 30 100 [] 0).1,
        x ∉ part) :=
  ⟨by decide, bicriteriaApproximation_root_unassigned Bicriteria.sampleTree 30 100 0 (by decide)⟩

/-! ## Strategy A: shape of the result and the secure flag -/

namespace SASAP

theorem size_pos (root : TreeNode) : ∃ n, root.size = n + 1 := by
  refine ⟨(TreeNode.nodesList root.children).length, ?_⟩
  simp [TreeNode.size, TreeNode.nodes_eq root]

/-- The first iteration seeds the first partition with the root. -/
theorem finalState_eq_after_first (root : TreeNode) (latencyLimit memoryLimit : Int)
    (linkages : List Linkage) :
    ∃ n, finalState root latencyLimit memoryLimit linkages =
      whileLoop latencyLimit memoryLimit n
        (loopBody latencyLimit memoryLimit (initState root linkages) root []) := by
  obtain ⟨n, hn⟩ := size_pos root
  exact ⟨n, by simp [finalState, hn, whileLoop, initState]⟩

theorem loopBody_first_partition (root : TreeNode) (latencyLimit memoryLimit : Int) (s : State)
    (node : TreeNode) (rest : List TreeNode)
    (h : (∃ p ps tail, s.partitions = p :: ps ∧ p.nodes = root.id :: tail) ∧
      ∀ q ∈ s.partitions, q.nodes ≠ []) :
    (∃ p ps tail, (loopBody latencyLimit memoryLimit s node rest).partitions = p :: ps ∧
        p.nodes = root.id :: tail) ∧
      ∀ q ∈ (loopBody latencyLimit memoryLimit s node rest).partitions, q.nodes ≠ [] := by
  obtain ⟨⟨p, ps, tail, hps, hp⟩, hne⟩ := h
  rcases loopBody_partitions latencyLimit memoryLimit s node rest with
    ⟨pre, p0, post, h1, -, -, h4⟩ | ⟨-, h4⟩
  · rw [h4]
    constructor
    · cases pre with
      | nil =>
        rw [hps] at h1
        simp only [List.nil_append, List.cons.injEq] at h1
        refine ⟨addNode p0 node, post, tail ++ [node.id], rfl, ?_⟩
        rw [← h1.1]
        simp [addNode, hp]
      | cons a pre' =>
        rw [hps] at h1
        simp only [List.cons_append, List.cons.injEq] at h1
        exact ⟨a, pre' ++ addNode p0 node :: post, tail, rfl, by rw [← h1.1]; exact hp⟩
    · intro q hq
      rcases List.mem_append.1 hq with hq | hq
      · exact hne q (by simp [h1, hq])
      rcases List.mem_cons.1 hq with rfl | hq
      · simp [addNode]
      · exact hne q (by simp [h1, hq])
  · rw [h4]
    constructor
    · exact ⟨p, ps ++ [createPartition node], tail, by simp [hps], hp⟩
    · intro q hq
      rcases List.mem_append.1 hq with hq | hq
      · exact hne q hq
      · rw [List.mem_singleton] at hq
        subst hq
        simp [createPartition]

/-- C23 (non-empty result). For every root and all limits, `improvedTreePartitioning`
returns at least one partition, the first member of the first partition is the id of the
root, and every returned partition has at least one member; so `partitions[0]` exists. -/
theorem improvedTreePartitioning_nonempty (root : TreeNode) (latencyLimit memoryLimit : Int)
    (linkages : List Linkage) :
    (∃ p ps tail, (improvedTreePartitioning root latencyLimit memoryLimit linkages).1 = p :: ps ∧
        p.nodes = root.id :: tail) ∧
    (∀ q ∈ (improvedTreePartitioning root latencyLimit memoryLimit linkages).1, q.nodes ≠ []) ∧
    0 < (improvedTreePartitioning root latencyLimit memoryLimit linkages).1.length := by
  obtain ⟨n, hn⟩ := finalState_eq_after_first root latencyLimit memoryLimit linkages
  have hinv := whileLoop_invariant latencyLimit memoryLimit
    (fun s => (∃ p ps tail, s.partitions = p :: ps ∧ p.nodes = root.id :: tail) ∧
      ∀ q ∈ s.partitions, q.nodes ≠ [])
    (fun s node rest hs _ => loopBody_first_partition root latencyLimit memoryLimit s node rest hs)
    n (loopBody latencyLimit memoryLimit (initState root linkages) root [])
    (by
      have hb : (loopBody latencyLimit memoryLimit (initState root linkages) root []).partitions =
          [createPartition root] := by
        simp [loopBody, initState, placeInExisting]
      show (∃ p ps tail, (loopBody latencyLimit memoryLimit (initState root linkages) root
          []).partitions = p :: ps ∧ p.nodes = root.id :: tail) ∧
        ∀ q ∈ (loopBody latencyLimit memoryLimit (initState root linkages) root []).partitions,
          q.nodes ≠ []
      rw [hb]
      exact ⟨⟨createPartition root, [], [], rfl, rfl⟩, by simp [createPartition]⟩)
  rw [← hn] at hinv
  refine ⟨hinv.1, hinv.2, ?_⟩
  obtain ⟨p, ps, -, hps, -⟩ := hinv.1
  have : (improvedTreePartitioning root latencyLimit memoryLimit linkages).1 = p :: ps := hps
  rw [this]
  simp

end SASAP

namespace SASAP

theorem nodeSecure_of_mem {root : TreeNode} (h : root.ids.Nodup) {n : TreeNode}
    (hn : n ∈ root.nodes) : nodeSecure root n.id = n.secureComputation := by
  simp [nodeSecure, findNode, find?_of_nodup_map h hn]

/-- A partition that accepts a node keeps its secure flag. -/
theorem addNode_flag {node : TreeNode} {latencyLimit memoryLimit : Int} {usedNodes : List Int}
    {p : Partition} (h : accepts node latencyLimit memoryLimit usedNodes p = true) :
    (addNode p node).hasSecureNode = p.hasSecureNode := by
  simp only [accepts, Bool.and_eq_true, Bool.or_eq_true, Bool.not_eq_true'] at h
  cases hs : node.secureComputation with
  | false => simp [addNode, hs]
  | true =>
    rcases h.2 with h2 | h2
    · rw [hs] at h2; cases h2
    · simp [addNode, hs, h2]

theorem loopBody_secureOk (root : TreeNode) (latencyLimit memoryLimit : Int) (s : State)
    (node : TreeNode) (rest : List TreeNode) (hnode : node ∈ root.nodes)
    (h : ∀ p ∈ s.partitions, SecureOk root p) :
    ∀ p ∈ (loopBody latencyLimit memoryLimit s node rest).partitions, SecureOk root p := by
  intro p hp
  rcases loopBody_partitions latencyLimit memoryLimit s node rest with
    ⟨pre, p0, post, h1, -, h3, h4⟩ | ⟨-, h4⟩
  · rw [h4] at hp
    rcases List.mem_append.1 hp with hp | hp
    · exact h p (by simp [h1, hp])
    rcases List.mem_cons.1 hp with rfl | hp
    · obtain ⟨seed, ns, hns, hids, hflag, hiff⟩ := h p0 (by simp [h1])
      have hkeep := addNode_flag h3
      refine ⟨seed, ns ++ [node], ?_, ?_, ?_, ?_⟩
      · intro n hn
        rw [← List.cons_append] at hn
        rcases List.mem_append.1 hn with hn | hn
        · exact hns n hn
        · rw [List.mem_singleton] at hn; exact hn ▸ hnode
      · rw [← List.cons_append, List.map_append, hids]
        simp [addNode]
      · rw [hkeep, hflag]
      · rw [hkeep, hiff]
        constructor
        · rintro ⟨n, hn, hsec⟩
          exact ⟨n, by rw [← List.cons_append]; exact List.mem_append_left _ hn, hsec⟩
        · rintro ⟨n, hn, hsec⟩
          rw [← List.cons_append] at hn
          rcases List.mem_append.1 hn with hn | hn
          · exact ⟨n, hn, hsec⟩
          · rw [List.mem_singleton] at hn
            subst hn
            have hp0 : p0.hasSecureNode = true := by
              simp only [accepts, Bool.and_eq_true, Bool.or_eq_true, Bool.not_eq_true'] at h3
              rcases h3.2 with h5 | h5
              · rw [hsec] at h5; cases h5
              · exact h5
            exact hiff.1 hp0
    · exact h p (by simp [h1, hp])
  · rw [h4] at hp
    rcases List.mem_append.1 hp with hp | hp
    · exact h p hp
    · rw [List.mem_singleton] at hp
      subst hp
      refine ⟨node, [], by simpa using hnode, by simp [createPartition],
        by simp [createPartition], ?_⟩
      simp [createPartition]

theorem finalState_secureOk (root : TreeNode) (latencyLimit memoryLimit : Int)
    (linkages : List Linkage) :
    ∀ p ∈ (finalState root latencyLimit memoryLimit linkages).partitions, SecureOk root p := by
  have hinv := whileLoop_invariant latencyLimit memoryLimit
    (fun s => (∀ n ∈ TreeNode.nodesList s.q, n ∈ root.nodes) ∧
      ∀ p ∈ s.partitions, SecureOk root p)
    (by
      intro s node rest hs hq
      refine ⟨loopBody_queue_subset root latencyLimit memoryLimit s node rest hq hs.1, ?_⟩
      apply loopBody_secureOk root latencyLimit memoryLimit s node rest _ hs.2
      apply hs.1
      rw [hq, TreeNode.nodesList_cons]
      exact List.mem_cons_self _ _)
    root.size (initState root linkages)
    ⟨initState_queue_subset root linkages, by simp [initState]⟩
  exact hinv.2

/-- One iteration keeps the secure flag of every partition that exists before it. -/
theorem loopBody_flags_prefix (latencyLimit memoryLimit : Int) (s : State) (node : TreeNode)
    (rest : List TreeNode) :
    (s.partitions.map (fun p => p.hasSecureNode)) <+:
      ((loopBody latencyLimit memoryLimit s node rest).partitions.map
        (fun p => p.hasSecureNode)) := by
  rcases loopBody_partitions latencyLimit memoryLimit s node rest with
    ⟨pre, p0, post, h1, -, h3, h4⟩ | ⟨-, h4⟩
  · rw [h4, h1]
    simp only [List.map_append, List.map_cons, addNode_flag h3]
    exact List.prefix_refl _
  · rw [h4, List.map_append]
    exact List.prefix_append _ _

/-- The secure flags of the partitions after `k` iterations are kept by all later
iterations. -/
theorem whileLoop_flags_prefix (latencyLimit memoryLimit : Int) (s : State) (k m : Nat) :
    ((whileLoop latencyLimit memoryLimit k s).partitions.map (fun p => p.hasSecureNode)) <+:
      ((whileLoop latencyLimit memoryLimit (k + m) s).partitions.map
        (fun p => p.hasSecureNode)) := by
  induction m with
  | zero => exact List.prefix_refl _
  | succ m ih =>
    refine ih.trans ?_
    cases hq : (whileLoop latencyLimit memoryLimit (k + m) s).q with
    | nil =>
      have := whileLoop_stable latencyLimit memoryLimit (k + m) 1 s hq
      rw [← Nat.add_assoc, this]
    | cons node rest =>
      rw [← Nat.add_assoc, whileLoop_succ latencyLimit memoryLimit (k + m) s node rest hq]
      exact loopBody_flags_prefix latencyLimit memoryLimit _ node rest

/-- C22 (secure flag invariant). For a tree with pairwise distinct ids and for all limits,
every partition `p` returned by `improvedTreePartitioning` has a first member, its seed;
`p.hasSecureNode` is true if and only if the seed node is secure, and if and only if the
node of at least one member is secure. And the flag never changes once the partition
exists: the flags of the partitions after `k` iterations of the loop are, position by
position, the flags of the same partitions after `k + m` iterations. -/
theorem improvedTreePartitioning_secure_flag (root : TreeNode) (latencyLimit memoryLimit : Int)
    (linkages : List Linkage) (hid : root.ids.Nodup) (p : Partition)
    (hp : p ∈ (improvedTreePartitioning root latencyLimit memoryLimit linkages).1) :
    (∃ seed rest, p.nodes = seed :: rest ∧
      (p.hasSecureNode = true ↔ nodeSecure root seed = true) ∧
      (p.hasSecureNode = true ↔ ∃ x ∈ p.nodes, nodeSecure root x = true)) ∧
    ∀ k m : Nat,
      ((whileLoop latencyLimit memoryLimit k (initState root linkages)).partitions.map
          (fun q => q.hasSecureNode)) <+:
        ((whileLoop latencyLimit memoryLimit (k + m) (initState root linkages)).partitions.map
          (fun q => q.hasSecureNode)) := by
  refine ⟨?_, fun k m => whileLoop_flags_prefix latencyLimit memoryLimit _ k m⟩
  obtain ⟨seed, ns, hns, hids, hflag, hiff⟩ :=
    finalState_secureOk root latencyLimit memoryLimit linkages p hp
  refine ⟨seed.id, ns.map TreeNode.id, by rw [← hids]; rfl, ?_, ?_⟩
  · rw [nodeSecure_of_mem hid (hns seed (List.mem_cons_self _ _)), hflag]
  · rw [hiff, ← hids]
    constructor
    · rintro ⟨n, hn, hsec⟩
      exact ⟨n.id, List.mem_map_of_mem _ hn, by rw [nodeSecure_of_mem hid (hns n hn)]; exact hsec⟩
    · rintro ⟨x, hx, hsec⟩
      obtain ⟨n, hn, rfl⟩ := List.mem_map.1 hx
      exact ⟨n, hn, by rw [nodeSecure_of_mem hid (hns n hn)] at hsec; exact hsec⟩

/-- Witness of C22: the partition `[1, 3]` of the sample tree under limits 15 and 25. -/
theorem improvedTreePartitioning_secure_flag_witness :
    sampleTree.ids.Nodup ∧ samplePair ∈ (improvedTreePartitioning sampleTree 15 25 []).1 ∧
    ((∃ seed rest, samplePair.nodes = seed :: rest ∧
      (samplePair.hasSecureNode = true ↔ nodeSecure sampleTree seed = true) ∧
      (samplePair.hasSecureNode = true ↔ ∃ x ∈ samplePair.nodes, nodeSecure sampleTree x = true)) ∧
    ∀ k m : Nat,
      ((whileLoop 15 25 k (initState sampleTree [])).partitions.map
          (fun q => q.hasSecureNode)) <+:
        ((whileLoop 15 25 (k + m) (initState sampleTree [])).partitions.map
          (fun q => q.hasSecureNode))) :=
  ⟨by decide, by decide,
    improvedTreePartitioning_secure_flag sampleTree 15 25 [] (by decide) samplePair (by decide)⟩

end SASAP

/-! ## `Left Right Tree Traversal.cpp` -/

namespace LeftRight

theorem TreeNode.preorder_cons (t : TreeNode) :
    t.preorder = t :: TreeNode.preorderList t.children := by
  cases t; simp [TreeNode.preorder, TreeNode.children]

theorem TreeNode.preorderList_append (xs ys : List TreeNode) :
    TreeNode.preorderList (xs ++ ys) = TreeNode.preorderList xs ++ TreeNode.preorderList ys := by
  induction xs with
  | nil => simp [TreeNode.preorderList]
  | cons x xs ih => simp [TreeNode.preorderList, ih]

theorem TreeNode.preorderList_cons (t : TreeNode) (ts : List TreeNode) :
    TreeNode.preorderList (t :: ts) =
      t :: TreeNode.preorderList (t.children ++ ts) := by
  simp [TreeNode.preorderList, TreeNode.preorder_cons t, TreeNode.preorderList_append]

/-- The loop over the children pushes them so that the leftmost child ends on top. -/
theorem pushChildren_nodes (children : List TreeNode) (index : Int) (n : Nat)
    (stack : List (TreeNode × Int × Int)) (h : n ≤ children.length) :
    (pushChildren children index n stack).map (fun e => e.1) =
      children.take n ++ stack.map (fun e => e.1) := by
  induction n generalizing stack with
  | zero => simp [pushChildren]
  | succ n ih =>
    have hlt : n < children.length := by omega
    have hget : children[n]? = some children[n] := List.getElem?_eq_getElem hlt
    simp only [pushChildren, hget]
    have htake : List.take (n + 1) children = List.take n children ++ [children[n]] := by
      rw [List.take_succ, hget]
      rfl
    rw [ih _ (by omega), htake, List.map_cons, List.append_assoc]
    rfl

/-- With enough fuel the loop appends the pre-order of the trees on the stack, from the top
down. -/
theorem traversalLoop_eq (fuel : Nat) (stack : List (TreeNode × Int × Int))
    (traversalResult : List (Int × Int))
    (h : (TreeNode.preorderList (stack.map (fun e => e.1))).length ≤ fuel) :
    traversalLoop fuel stack traversalResult =
      traversalResult ++
        (TreeNode.preorderList (stack.map (fun e => e.1))).map (fun n => (n.id, n.cost)) := by
  induction fuel generalizing stack traversalResult with
  | zero =>
    have hnil : TreeNode.preorderList (stack.map (fun e => e.1)) = [] :=
      List.length_eq_zero.1 (by omega)
    simp [traversalLoop, hnil]
  | succ fuel ih =>
    cases stack with
    | nil => simp [traversalLoop, TreeNode.preorderList]
    | cons top rest =>
      obtain ⟨node, parent_index, index⟩ := top
      have hpush := pushChildren_nodes node.children index node.children.length rest
        (Nat.le_refl _)
      rw [List.take_length] at hpush
      simp only [List.map_cons, TreeNode.preorderList_cons, List.length_cons] at h
      simp only [traversalLoop]
      rw [ih _ _ (by rw [hpush]; omega), hpush]
      simp [TreeNode.preorderList_cons]

end LeftRight

/-- C26 (left-right traversal order). For every tree, `LeftRightTreeTraversal` returns the
`(id, cost)` pairs of the nodes in pre-order (a node before its descendants, children from
left to right), one entry per node: the length of the result is the number of nodes and its
first entry is the root. For a null root it returns the empty list. -/
theorem LeftRightTreeTraversal_preorder (root : LeftRight.TreeNode) :
    LeftRight.LeftRightTreeTraversal none = [] ∧
    LeftRight.LeftRightTreeTraversal (some root) =
      root.preorder.map (fun n => (n.id, n.cost)) ∧
    (LeftRight.LeftRightTreeTraversal (some root)).length = root.preorder.length ∧
    (LeftRight.LeftRightTreeTraversal (some root)).head? = some (root.id, root.cost) := by
  have heq : LeftRight.LeftRightTreeTraversal (some root) =
      root.preorder.map (fun n => (n.id, n.cost)) := by
    simp only [LeftRight.LeftRightTreeTraversal]
    rw [LeftRight.traversalLoop_eq]
    · simp [LeftRight.TreeNode.preorderList]
    · simp [LeftRight.TreeNode.preorderList]
  refine ⟨rfl, heq, ?_, ?_⟩
  · rw [heq, List.length_map]
  · rw [heq, LeftRight.TreeNode.preorder_cons]
    rfl
